import Mathlib

/-!
Verification of the dataflow library (Go): graph analysis (cycle detection,
consistency check), execution-graph construction, and a functional model of
the runtime flow network (workers, pipes, error propagation).

Machine integers do not occur in the verified fragment; Go `string` is
modelled by `String`, Go maps by association lists with replace-on-insert,
Go `interface{}` values by `Option V` (with `none` for Go `nil`), and Go
`error` by `Option GoErr`.
-/

namespace Dataflow

/- Terminal labels, from the source:
     Input = "exec-input"
     sink  = "exec-sink" -/
def Input : String := "exec-input"

def sink : String := "exec-sink"

/-! ## Adjacency graphs (`map[string][]string`)

A Go map is modelled as an association list with distinct keys; a missing
key yields the zero value `[]` exactly as `graph[n]` does in Go. -/

abbrev Graph := List (String × List String)

def lookupStr {β : Type} : List (String × β) → String → Option β
  | [], _ => none
  | (a, b) :: t, k => if a = k then some b else lookupStr t k

/-- `graph[n]` — the successor list of `n`, `[]` when `n` is not a key. -/
def succs (g : Graph) (n : String) : List String :=
  (lookupStr g n).getD []

def keys (g : Graph) : List String := g.map Prod.fst

/-- All nodes mentioned by the adjacency map: every key and every listed
successor.  This is the key set of the `visited` map that
`consistencyCheck` initialises. -/
def allNodes (g : Graph) : List String :=
  g.foldr (fun kv acc => kv.1 :: kv.2 ++ acc) []

/-- One edge of the successor graph. -/
def Edge (g : Graph) (a b : String) : Prop := b ∈ succs g a

/-- Reachability along successor edges. -/
def Reach (g : Graph) : String → String → Prop :=
  Relation.ReflTransGen (Edge g)

/-- A directed cycle somewhere in the graph. -/
def HasCycle (g : Graph) : Prop :=
  ∃ n, Relation.TransGen (Edge g) n n

/-! ## Cycle detection (`containsLoop`)

Three-color DFS.  The Go code stores colors in `map[string]color` whose
zero value is none of white/gray/black, so colors are `Option Color`:
`none` is the never-initialised zero value of nodes that are not keys. -/

inductive Color | white | gray | black
deriving DecidableEq

abbrev Colors := String → Option Color

def updateC (c : Colors) (n : String) (v : Option Color) : Colors :=
  fun m => if m = n then v else c m

/-- The loop body `for _, successor := range graph[n] { switch ... }`,
with the recursive visit passed as `visit` (the caller instantiates it
with the fuel-indexed `dfsVisit`).  `none` signals fuel exhaustion. -/
def dfsStep (visit : Colors → String → Option (Bool × Colors)) :
    Colors → List String → Option (Bool × Colors)
  | c, [] => some (false, c)
  | c, s :: rest =>
    match c s with
    | some .gray => some (true, c)
    | some .white =>
      match visit c s with
      | none => none
      | some (true, c') => some (true, c')
      | some (false, c') => dfsStep visit c' rest
    | _ => dfsStep visit c rest

/-- `dfs` of `containsLoop`: mark gray, scan successors, mark black. -/
def dfsVisit (g : Graph) : Nat → Colors → String → Option (Bool × Colors)
  | 0, _, _ => none
  | f + 1, c, n =>
    match dfsStep (dfsVisit g f) (updateC c n (some .gray)) (succs g n) with
    | none => none
    | some (true, c') => some (true, c')
    | some (false, c') => some (false, updateC c' n (some .black))

/-- `for node := range graph { colors[node] = white }` -/
def initColors (g : Graph) : Colors :=
  fun n => if n ∈ keys g then some Color.white else none

/-- The seeding loop `for node := range graph { if colors[node] == white ... }`. -/
def loopSeeds (g : Graph) (fuel : Nat) : Colors → List String → Option Bool
  | _, [] => some false
  | c, n :: rest =>
    if c n = some Color.white then
      match dfsVisit g fuel c n with
      | none => none
      | some (true, _) => some true
      | some (false, c') => loopSeeds g fuel c' rest
    else loopSeeds g fuel c rest

/-- Fuel covering the maximal gray-stack depth: one per key, plus one. -/
def loopFuel (g : Graph) : Nat := (keys g).length + 1

def containsLoopRun (g : Graph) : Option Bool :=
  loopSeeds g (loopFuel g) (initColors g) (keys g)

/-- `containsLoop`.  The default of `getD` is never taken: the fuel is
proved sufficient (`containsLoopRun_isSome`). -/
def containsLoop (g : Graph) : Bool :=
  (containsLoopRun g).getD false

/-! ## Consistency check (`consistencyCheck`) -/

inductive CheckError
  /-- `intermediate stage with no outputs: %s` -/
  | dangling (s : String)
  /-- `unreachable stage: %s` -/
  | unreachable (s : String)
deriving DecidableEq

abbrev Vis := String → Bool

def updateV (v : Vis) (n : String) (b : Bool) : Vis :=
  fun m => if m = n then b else v m

/-- The loop `for _, succ := range graph[n] { if err := dfs(succ) ... }`. -/
def dfsCStep (visit : Vis → String → Option (Vis × Option CheckError)) :
    Vis → List String → Option (Vis × Option CheckError)
  | vis, [] => some (vis, none)
  | vis, s :: rest =>
    match visit vis s with
    | none => none
    | some (vis', some e) => some (vis', some e)
    | some (vis', none) => dfsCStep visit vis' rest

/-- `dfs` of `consistencyCheck`: mark visited, flag a non-sink node with no
successors as dangling, otherwise recurse into every successor.  The Go
recursion has no fuel; `none` reports exhaustion and is proved unreachable
for acyclic graphs. -/
def dfsC (g : Graph) : Nat → Vis → String → Option (Vis × Option CheckError)
  | 0, _, _ => none
  | f + 1, vis, n =>
    let vis' := updateV vis n true
    if succs g n = [] ∧ n ≠ sink then some (vis', some (.dangling n))
    else dfsCStep (dfsC g f) vis' (succs g n)

def checkFuel (g : Graph) : Nat := (allNodes g).length + 2

/-- `consistencyCheck`.  Outer `none` is fuel exhaustion (possible only on
a cyclic graph, where the Go code would not terminate); `some none` is
success; `some (some e)` is the returned error. -/
def consistencyCheck (g : Graph) : Option (Option CheckError) :=
  match dfsC g (checkFuel g) (fun _ => false) Input with
  | none => none
  | some (_, some e) => some (some e)
  | some (vis, none) =>
    match (allNodes g).find? (fun m => !vis m) with
    | some m => some (some (.unreachable m))
    | none => some none

/-- A completed (`false`-returning) DFS run only turns white nodes black. -/
def ChangesWB (c c' : Colors) : Prop :=
  ∀ m, c' m = c m ∨ (c m = some Color.white ∧ c' m = some Color.black)

/-- No node reachable from `n` lies on a directed cycle. -/
def NoCycleFrom (g : Graph) (n : String) : Prop :=
  ∀ m, Reach g n m → ¬ Relation.TransGen (Edge g) m m

/-- Every black node is cycle-safe. -/
def BlackOK (g : Graph) (c : Colors) : Prop :=
  ∀ m, c m = some Color.black → NoCycleFrom g m

/-- Uncolored nodes (Go's map zero value) are exactly non-keys, which have
no successors. -/
def NoneNoSucc (g : Graph) (c : Colors) : Prop :=
  ∀ m, c m = none → succs g m = []

def whiteCount (g : Graph) (c : Colors) : Nat :=
  ((keys g).dedup).countP (fun m => decide (c m = some Color.white))

def WhiteSub (g : Graph) (c : Colors) : Prop :=
  ∀ m, c m = some Color.white → m ∈ (keys g).dedup

/-! ## Stages and execution-graph construction

Go `interface{}` values are `Option V` (`none` is Go `nil`), Go `error`
is `Option GoErr`; `GoErr.wrap` is `fmt.Errorf("stage %s: %w", label, err)`. -/

inductive GoErr
  | user (msg : String)
  | wrap (label : String) (e : GoErr)
deriving DecidableEq

structure Stage (V : Type) where
  label : String
  requires : List String
  exec : List (Option V) → Option V × Option GoErr

def NewStage {V : Type} (label : String)
    (exec : List (Option V) → Option V × Option GoErr) (requires : List String) : Stage V :=
  ⟨label, requires, exec⟩

def NewFinalStage {V : Type}
    (exec : List (Option V) → Option V × Option GoErr) (requires : List String) : Stage V :=
  ⟨sink, requires, exec⟩

/-- `func(args ...interface{}) (interface{}, error) { return args[0], nil }` -/
def inputStage (V : Type) : Stage V :=
  ⟨Input, [], fun args => (args.getD 0 none, none)⟩

abbrev StageMap (V : Type) := List (String × Stage V)

/-- Go map insertion: replace in place, else append. -/
def insertGo {V : Type} : StageMap V → String → Stage V → StageMap V
  | [], k, v => [(k, v)]
  | (a, b) :: t, k, v => if a = k then (k, v) :: t else (a, b) :: insertGo t k v

/-- `graph[predecessor] = append(graph[predecessor], node)` -/
def addSucc : Graph → String → String → Graph
  | [], p, n => [(p, [n])]
  | (k, vs) :: rest, p, n =>
    if k = p then (k, vs ++ [n]) :: rest else (k, vs) :: addSucc rest p n

/-- `convertStages`: invert the `requires` lists into a successor map. -/
def convertStages {V : Type} (sm : StageMap V) : Graph :=
  sm.foldl (fun gr kv => kv.2.requires.foldl (fun gr p => addSucc gr p kv.1) gr) []

inductive AnalysisError
  | noInputStage
  | noFinalStage
  | loops
  | inconsistent (e : CheckError)
  /-- fuel exhaustion of the consistency dfs; never reached, because `analyze`
  runs it only on acyclic graphs -/
  | fuelExhausted
deriving DecidableEq

/-- `analyze`: terminal presence, cycle detection, consistency check. -/
def analyze {V : Type} (sm : StageMap V) : Option AnalysisError :=
  match lookupStr sm Input with
  | none => some .noInputStage
  | some _ =>
    match lookupStr sm sink with
    | none => some .noFinalStage
    | some _ =>
      let graph := convertStages sm
      if containsLoop graph then some .loops
      else
        match consistencyCheck graph with
        | none => some .fuelExhausted
        | some (some e) => some (.inconsistent e)
        | some none => none

structure ExecutionGraph (V : Type) where
  stages : StageMap V

inductive ConstructionError
  /-- `label '%s' interfering with internal stage` -/
  | labelInterference (label : String)
  | analysis (e : AnalysisError)
deriving DecidableEq

/-- The caller-stage loop of `NewExecutionGraph`: reject a reserved label,
otherwise insert into the map. -/
def addCallerStages {V : Type} : StageMap V → List (Stage V) → Except ConstructionError (StageMap V)
  | m, [] => .ok m
  | m, s :: rest =>
    if s.label = Input ∨ s.label = sink then .error (.labelInterference s.label)
    else addCallerStages (insertGo m s.label s) rest

def NewExecutionGraph {V : Type} (final : Stage V) (stages : List (Stage V)) :
    Except ConstructionError (ExecutionGraph V) :=
  match addCallerStages (insertGo (insertGo [] Input (inputStage V)) sink final) stages with
  | .error e => .error e
  | .ok m =>
    match analyze m with
    | some e => .error (.analysis e)
    | none => .ok ⟨m⟩

/-- The "normal execution" topology of the repository's own test suite. -/
def gNormal : Graph :=
  [(Input, ["f1", "f2"]), ("f1", ["f3"]), ("f2", ["f4", "f5"]),
   ("f3", [sink]), ("f4", [sink]), ("f5", [sink])]

/-- A stage mapping with entry, exit and an isolated caller stage: the
isolated stage appears in no dependency edge, so `convertStages` drops it. -/
def isoStage : Stage Int := NewStage "iso" (fun _ => (none, none)) []

def smIso : StageMap Int :=
  [(Input, inputStage Int), (sink, NewFinalStage (fun _ => (none, none)) [Input]),
   ("iso", isoStage)]

def gIso : Graph := convertStages smIso

/-! ## Runtime flow network

`Run` wires one single-slot pipe per dependency edge and spawns one worker
per stage; for one request submitted to an idle network each worker
completes exactly one round (every pipe is single-producer single-consumer
and carries exactly one envelope per request), so the envelope a stage
broadcasts is a deterministic function of the envelopes of its `requires`
stages — `evalNet` below computes it.  `roundResult` is one round of the
`runStage` body: drain the inbound envelopes in index order, keep the last
error seen, and either propagate that error without computing or run the
computation and wrap its error with the stage label. -/

structure either (V : Type) where
  value : Option V
  err : Option GoErr
deriving DecidableEq

/-- The error-aggregation loop of `runStage`: `executionErr` starts `nil`
and is overwritten by every non-nil inbound error, so the last one wins. -/
def lastErr {V : Type} (envs : List (either V)) : Option GoErr :=
  envs.foldl (fun acc e => match e.err with | some er => some er | none => acc) none

/-- One round of the `runStage` body, given the envelopes read from the
inbound pipes in index order. -/
def roundResult {V : Type} (st : Stage V) (envs : List (either V)) : either V :=
  match lastErr envs with
  | some er => ⟨none, some er⟩
  | none =>
    let r := st.exec (envs.map (fun e => e.value))
    ⟨r.1, r.2.map (fun e => GoErr.wrap st.label e)⟩

/-- A pipe of the wiring loop: created for the `idx`-th requirement of
stage `dst`, fed by stage `src`. -/
structure Pipe where
  src : String
  dst : String
  idx : Nat
deriving DecidableEq

/-- The inner wiring loop of `Run`: one pipe appended per requirement, in
`requires` order. -/
def wireIn (dst : String) : List String → Nat → List Pipe
  | [], _ => []
  | r :: rest, i => ⟨r, dst, i⟩ :: wireIn dst rest (i + 1)

def inPipes {V : Type} (st : Stage V) : List Pipe := wireIn st.label st.requires 0

/-- The fan-out loop of `runStage`: the same envelope is sent to every
outbound pipe. -/
def fanOut {V : Type} (env : either V) (outs : List Pipe) : List (Pipe × either V) :=
  outs.map (fun p => (p, env))

/-- Sequence the envelopes of a requirement list (`none` = fuel ran out). -/
def seqEnvs {V : Type} (ev : String → Option (either V)) :
    List String → Option (List (either V))
  | [] => some []
  | r :: rest =>
    match ev r with
    | none => none
    | some e =>
      match seqEnvs ev rest with
      | none => none
      | some es => some (e :: es)

/-- The envelope stage `n` broadcasts for one request with external argument
`x`.  The entry worker's sole inbound pipe is the ingress pipe carrying
`⟨x, nil⟩`; every other worker reads one envelope per `requires` entry, in
order, from the pipe fed by that requirement's stage. -/
def evalNet {V : Type} (sm : StageMap V) (x : Option V) : Nat → String → Option (either V)
  | 0, _ => none
  | f + 1, n =>
    match lookupStr sm n with
    | none => none
    | some st =>
      if n = Input then some (roundResult st [⟨x, none⟩])
      else
        match seqEnvs (evalNet sm x f) st.requires with
        | none => none
        | some envs => some (roundResult st envs)

def netFuel {V : Type} (sm : StageMap V) : Nat := sm.length + 2

/-- Outcome of one call of the `TotalExecution` closure.  `panicked` models a
Go runtime panic (a send on a closed channel); `blocked` models a call that
never receives an egress envelope. -/
inductive InvokeResult (V : Type)
  | returned (value : Option V) (err : Option GoErr)
  | panicked (msg : String)
  | blocked
deriving DecidableEq

/-- A spawned flow network: the stage map plus the state of the ingress
channel (`collapse` closes it). -/
structure FlowNetwork (V : Type) where
  stages : StageMap V
  ingressOpen : Bool

def ExecutionGraph.Run {V : Type} (g : ExecutionGraph V) : FlowNetwork V :=
  ⟨g.stages, true⟩

/-- The returned `Collapse` closure: `close(in)`. -/
def collapse {V : Type} (nw : FlowNetwork V) : FlowNetwork V :=
  { nw with ingressOpen := false }

/-- One call of the `TotalExecution` closure: `in <- either{Value: arg}`
followed by `result := <-out`.  A send on the closed ingress channel is a
Go runtime panic with message "send on closed channel". -/
def invoke {V : Type} (nw : FlowNetwork V) (x : Option V) : InvokeResult V :=
  if nw.ingressOpen then
    match evalNet nw.stages x (netFuel nw.stages) sink with
    | some env => .returned env.value env.err
    | none => .blocked
  else
    .panicked "send on closed channel"

/-! ## The repository's five-stage example network -/

def bExec : List (Option Int) → Option Int × Option GoErr
  | [some a] => (some (a - 1), none)
  | [none] => (none, some (.user "bad argument"))
  | _ => (none, some (.user "unexpected arguments"))

def cExec : List (Option Int) → Option Int × Option GoErr
  | [some a] => (some (a + 2), none)
  | [none] => (none, some (.user "bad argument"))
  | _ => (none, some (.user "unexpected arguments"))

def dExec : List (Option Int) → Option Int × Option GoErr
  | [some a] => (some (a + 5), none)
  | [none] => (none, some (.user "bad argument"))
  | _ => (none, some (.user "unexpected arguments"))

def eExec : List (Option Int) → Option Int × Option GoErr
  | [some c, some d] => (some (c * d), none)
  | [none, _] => (none, some (.user "bad first argument"))
  | [_, none] => (none, some (.user "bad second argument"))
  | _ => (none, some (.user "unexpected arguments"))

def finExec : List (Option Int) → Option Int × Option GoErr
  | [some b, some e] => (some (b + e), none)
  | [none, _] => (none, some (.user "bad first argument"))
  | [_, none] => (none, some (.user "bad second argument"))
  | _ => (none, some (.user "unexpected arguments"))

def exampleStages : List (Stage Int) :=
  [NewStage "b" bExec [Input], NewStage "c" cExec [Input],
   NewStage "d" dExec [Input], NewStage "e" eExec ["c", "d"]]

def exampleFinal : Stage Int := NewFinalStage finExec ["b", "e"]

/-- The stage map `NewExecutionGraph exampleFinal exampleStages` builds. -/
def exampleSM : StageMap Int :=
  [(Input, inputStage Int), (sink, exampleFinal),
   ("b", NewStage "b" bExec [Input]), ("c", NewStage "c" cExec [Input]),
   ("d", NewStage "d" dExec [Input]), ("e", NewStage "e" eExec ["c", "d"])]

/-- Input data for the C6 witness: two inbound envelopes, both carrying
errors. -/
def errStage : Stage Int := NewStage "w" (fun _ => (some 0, none)) ["a", "b"]

def errEnvs : List (either Int) :=
  [⟨some 1, some (.user "e1")⟩, ⟨some 2, some (.user "e2")⟩]

/-! ## Envelopes carrying both a value and an error (C8) -/

/-- A stage whose computation returns a non-nil value and a non-nil error. -/
def bothStage : Stage Int := NewStage "both" (fun _ => (some 7, some (.user "boom"))) [Input]

/-! ## Teardown (C7) -/

def nwCollapsed : FlowNetwork Int := collapse (ExecutionGraph.Run ⟨exampleSM⟩)

/-! ## The argument-read loop (C5)

`runStage` reads `stage.in[0], stage.in[1], ...` in index order, blocking on
an earlier index before inspecting a later one.  The model below makes the
physical arrival order explicit: envelopes arrive on the pipe slots in an
arbitrary order (`sched`), and the worker consumes the slot `next` only once
it is filled, never a later slot first.  `args` is the argument vector the
computation finally receives and `trace` the order in which pipe indices
were consumed. -/

structure ReadLoop (V : Type) where
  slots : Nat → Option (either V)
  next : Nat
  args : List (either V)
  trace : List Nat

/-- Consume filled slots in index order until the next needed slot is
still empty (the worker blocks there) or all `k` are read. -/
def drainLoop {V : Type} (k : Nat) (st : ReadLoop V) : ReadLoop V :=
  if _h : st.next < k then
    match st.slots st.next with
    | none => st
    | some e =>
      drainLoop k { st with
        next := st.next + 1
        args := st.args ++ [e]
        trace := st.trace ++ [st.next] }
  else st

termination_by k - st.next
decreasing_by simp_wf; omega

/-- One physical arrival: the envelope of pipe `i` lands in its slot, then
the worker consumes whatever has become readable in index order. -/
def deliver {V : Type} (k : Nat) (st : ReadLoop V) (i : Nat) (e : either V) : ReadLoop V :=
  drainLoop k { st with slots := fun j => if j = i then some e else st.slots j }

/-- The whole read phase of one round, for arrival order `sched` of the `k`
pipe indices, pipe `i` carrying `envs i`. -/
def runReader {V : Type} (k : Nat) (envs : Nat → either V) (sched : List Nat) : ReadLoop V :=
  sched.foldl (fun st i => deliver k st i (envs i)) ⟨fun _ => none, 0, [], []⟩

def witnessEnvs : Nat → either Int := fun i => ⟨some (Int.ofNat i), none⟩

/-- The recursion relation of `evalNet`: stage `n` reads from stage `r`. -/
def REdge {V : Type} (sm : StageMap V) (n r : String) : Prop :=
  ∃ st, lookupStr sm n = some st ∧ r ∈ st.requires

/-- Similarity used by C3: `sm'` has the same keys and `requires` lists as
`sm`, and may differ in the computation only at stages strictly downstream
of `c`. -/
def SimExcept {V : Type} (sm sm' : StageMap V) (c : String) : Prop :=
  ∀ n, (lookupStr sm n = none ∧ lookupStr sm' n = none) ∨
    (∃ st st', lookupStr sm n = some st ∧ lookupStr sm' n = some st' ∧
      st'.requires = st.requires ∧
      ((Relation.ReflTransGen (Edge (convertStages sm)) c n ∧ n ≠ c) ∨ st' = st))

def cFailExec : List (Option Int) → Option Int × Option GoErr :=
  fun _ => (none, some (.user "boom"))

/-- The example network with stage `c`'s computation replaced by one that
always fails. -/
def exampleFailSM : StageMap Int :=
  [(Input, inputStage Int), (sink, exampleFinal),
   ("b", NewStage "b" bExec [Input]), ("c", NewStage "c" cFailExec [Input]),
   ("d", NewStage "d" dExec [Input]), ("e", NewStage "e" eExec ["c", "d"])]

/-! ## Correctness of `containsLoop` -/

theorem updateC_same (c : Colors) (n : String) (v : Option Color) :
    updateC c n v n = v := by simp [updateC]

theorem updateC_other (c : Colors) (n m : String) (v : Option Color) (h : m ≠ n) :
    updateC c n v m = c m := by simp [updateC, h]

theorem changesWB_refl (c : Colors) : ChangesWB c c := fun _ => Or.inl rfl

theorem changesWB_trans {c₁ c₂ c₃ : Colors}
    (h₁ : ChangesWB c₁ c₂) (h₂ : ChangesWB c₂ c₃) : ChangesWB c₁ c₃ := by
  intro m
  rcases h₂ m with h | ⟨hw, hb⟩
  · rcases h₁ m with h' | ⟨hw', hb'⟩
    · exact Or.inl (h.trans h')
    · exact Or.inr ⟨hw', h ▸ hb'⟩
  · rcases h₁ m with h' | ⟨hw', hb'⟩
    · exact Or.inr ⟨h' ▸ hw, hb⟩
    · rw [hb'] at hw; cases hw

theorem ChangesWB.gray_back {c c' : Colors} (h : ChangesWB c c') {m : String}
    (hg : c' m = some Color.gray) : c m = some Color.gray := by
  rcases h m with h' | ⟨_, hb⟩
  · rw [← h']; exact hg
  · rw [hb] at hg; cases hg

theorem ChangesWB.white_back {c c' : Colors} (h : ChangesWB c c') {m : String}
    (hw : c' m = some Color.white) : c m = some Color.white := by
  rcases h m with h' | ⟨_, hb⟩
  · rw [← h']; exact hw
  · rw [hb] at hw; cases hw

theorem ChangesWB.black_fwd {c c' : Colors} (h : ChangesWB c c') {m : String}
    (hb : c m = some Color.black) : c' m = some Color.black := by
  rcases h m with h' | ⟨hw, _⟩
  · rw [h']; exact hb
  · rw [hw] at hb; cases hb

theorem ChangesWB.none_back {c c' : Colors} (h : ChangesWB c c') {m : String}
    (hn : c' m = none) : c m = none := by
  rcases h m with h' | ⟨_, hb⟩
  · rw [← h']; exact hn
  · rw [hb] at hn; cases hn

theorem ChangesWB.none_fwd {c c' : Colors} (h : ChangesWB c c') {m : String}
    (hn : c m = none) : c' m = none := by
  rcases h m with h' | ⟨hw, _⟩
  · rw [h']; exact hn
  · rw [hw] at hn; cases hn

theorem dfsStep_changes (visit : Colors → String → Option (Bool × Colors))
    (hv : ∀ c n c', c n = some Color.white → visit c n = some (false, c') → ChangesWB c c') :
    ∀ (l : List String) (c c' : Colors),
      dfsStep visit c l = some (false, c') → ChangesWB c c' := by
  intro l
  induction l with
  | nil =>
    intro c c' h
    simp only [dfsStep, Option.some.injEq, Prod.mk.injEq, true_and] at h
    exact h ▸ changesWB_refl c
  | cons s rest ih =>
    intro c c' h
    simp only [dfsStep] at h
    cases hcs : c s with
    | none => rw [hcs] at h; exact ih c c' h
    | some col =>
      cases col with
      | gray => rw [hcs] at h; simp at h
      | black => rw [hcs] at h; exact ih c c' h
      | white =>
        rw [hcs] at h
        cases hvis : visit c s with
        | none => rw [hvis] at h; simp at h
        | some p =>
          obtain ⟨b, c₂⟩ := p
          cases b with
          | true => rw [hvis] at h; simp at h
          | false =>
            rw [hvis] at h
            exact changesWB_trans (hv c s c₂ hcs hvis) (ih c₂ c' h)

theorem dfsVisit_changes (g : Graph) :
    ∀ (f : Nat) (c : Colors) (n : String) (c' : Colors), c n = some Color.white →
      dfsVisit g f c n = some (false, c') → ChangesWB c c' := by
  intro f
  induction f with
  | zero => intro c n c' _ h; simp [dfsVisit] at h
  | succ f ih =>
    intro c n c' hw h
    simp only [dfsVisit] at h
    cases hstep : dfsStep (dfsVisit g f) (updateC c n (some Color.gray)) (succs g n) with
    | none => rw [hstep] at h; simp at h
    | some p =>
      obtain ⟨b, c₂⟩ := p
      cases b with
      | true => rw [hstep] at h; simp at h
      | false =>
        rw [hstep] at h
        simp only [Option.some.injEq, Prod.mk.injEq, true_and] at h
        have hch : ChangesWB (updateC c n (some Color.gray)) c₂ :=
          dfsStep_changes _ (fun c n c' hw hvis => ih c n c' hw hvis) _ _ _ hstep
        subst h
        intro m
        by_cases hm : m = n
        · subst hm
          exact Or.inr ⟨hw, updateC_same _ _ _⟩
        · rw [updateC_other _ _ _ _ hm]
          rcases hch m with h' | ⟨hw', hb'⟩
          · rw [updateC_other _ _ _ _ hm] at h'
            exact Or.inl h'
          · rw [updateC_other _ _ _ _ hm] at hw'
            exact Or.inr ⟨hw', hb'⟩

theorem dfsStep_sound (g : Graph) (visit : Colors → String → Option (Bool × Colors)) (n : String)
    (hvt : ∀ c s c', (∀ m, c m = some Color.gray → Reach g m s) →
      visit c s = some (true, c') → HasCycle g)
    (hvf : ∀ c s c', c s = some Color.white → visit c s = some (false, c') → ChangesWB c c') :
    ∀ (l : List String) (c c' : Colors), (∀ s ∈ l, Edge g n s) →
      (∀ m, c m = some Color.gray → Reach g m n) →
      dfsStep visit c l = some (true, c') → HasCycle g := by
  intro l
  induction l with
  | nil => intro c c' _ _ h; simp [dfsStep] at h
  | cons s rest ih =>
    intro c c' hedge hgray h
    simp only [dfsStep] at h
    cases hcs : c s with
    | none => rw [hcs] at h; exact ih c c' (fun t ht => hedge t (List.mem_cons_of_mem _ ht)) hgray h
    | some col =>
      cases col with
      | gray =>
        exact ⟨s, Relation.TransGen.tail' (hgray s hcs) (hedge s (List.mem_cons_self s rest))⟩
      | black => rw [hcs] at h; exact ih c c' (fun t ht => hedge t (List.mem_cons_of_mem _ ht)) hgray h
      | white =>
        rw [hcs] at h
        cases hvis : visit c s with
        | none => rw [hvis] at h; simp at h
        | some p =>
          obtain ⟨b, c₂⟩ := p
          cases b with
          | true =>
            exact hvt c s c₂
              (fun m hm => (hgray m hm).tail (hedge s (List.mem_cons_self s rest))) hvis
          | false =>
            rw [hvis] at h
            have hch := hvf c s c₂ hcs hvis
            exact ih c₂ c' (fun t ht => hedge t (List.mem_cons_of_mem _ ht))
              (fun m hm => hgray m (hch.gray_back hm)) h

theorem dfsVisit_sound (g : Graph) :
    ∀ (f : Nat) (c : Colors) (n : String) (c' : Colors),
      (∀ m, c m = some Color.gray → Reach g m n) →
      dfsVisit g f c n = some (true, c') → HasCycle g := by
  intro f
  induction f with
  | zero => intro c n c' _ h; simp [dfsVisit] at h
  | succ f ih =>
    intro c n c' hgray h
    simp only [dfsVisit] at h
    cases hstep : dfsStep (dfsVisit g f) (updateC c n (some Color.gray)) (succs g n) with
    | none => rw [hstep] at h; simp at h
    | some p =>
      obtain ⟨b, c₂⟩ := p
      cases b with
      | false => rw [hstep] at h; simp at h
      | true =>
        refine dfsStep_sound g (dfsVisit g f) n (fun c s c' hg hv => ih c s c' hg hv)
          (fun c s c' hw hv => dfsVisit_changes g f c s c' hw hv)
          (succs g n) (updateC c n (some Color.gray)) c₂ (fun s hs => hs) ?_ hstep
        intro m hm
        by_cases hmn : m = n
        · subst hmn; exact Relation.ReflTransGen.refl
        · rw [updateC_other _ _ _ _ hmn] at hm
          exact hgray m hm

theorem loopSeeds_true (g : Graph) (fuel : Nat) :
    ∀ (seeds : List String) (c : Colors), (∀ m, c m ≠ some Color.gray) →
      loopSeeds g fuel c seeds = some true → HasCycle g := by
  intro seeds
  induction seeds with
  | nil => intro c _ h; simp [loopSeeds] at h
  | cons n rest ih =>
    intro c hng h
    simp only [loopSeeds] at h
    by_cases hcn : c n = some Color.white
    · rw [if_pos hcn] at h
      cases hvis : dfsVisit g fuel c n with
      | none => rw [hvis] at h; simp at h
      | some p =>
        obtain ⟨b, c'⟩ := p
        cases b with
        | true => exact dfsVisit_sound g fuel c n c' (fun m hm => absurd hm (hng m)) hvis
        | false =>
          rw [hvis] at h
          have hch := dfsVisit_changes g fuel c n c' hcn hvis
          exact ih c' (fun m hm => hng m (hch.gray_back hm)) h
    · rw [if_neg hcn] at h
      exact ih c hng h

theorem transGen_head {α : Type} {r : α → α → Prop} {a b : α} (h : Relation.TransGen r a b) :
    ∃ c, r a c ∧ Relation.ReflTransGen r c b := by
  induction h with
  | single h => exact ⟨_, h, .refl⟩
  | tail _ h ih =>
    obtain ⟨c, hc, hcb⟩ := ih
    exact ⟨c, hc, hcb.tail h⟩

theorem noCycleFrom_of_no_succs (g : Graph) (n : String) (h : succs g n = []) :
    NoCycleFrom g n := by
  intro m hr hc
  rcases hr.cases_head with rfl | ⟨x, hx, _⟩
  · obtain ⟨y, hy, _⟩ := transGen_head hc
    rw [Edge, h] at hy
    exact absurd hy (List.not_mem_nil y)
  · rw [Edge, h] at hx
    exact absurd hx (List.not_mem_nil x)

theorem noCycleFrom_of_succs (g : Graph) (n : String)
    (h : ∀ s ∈ succs g n, NoCycleFrom g s) : NoCycleFrom g n := by
  intro m hr hc
  rcases hr.cases_head with rfl | ⟨s, hs, hsm⟩
  · obtain ⟨s, hs, hsn⟩ := transGen_head hc
    exact h s hs n hsn hc
  · exact h s hs m hsm hc

theorem dfsStep_complete (g : Graph) (visit : Colors → String → Option (Bool × Colors))
    (hv : ∀ c s c', c s = some Color.white → BlackOK g c → NoneNoSucc g c →
      visit c s = some (false, c') →
      BlackOK g c' ∧ NoneNoSucc g c' ∧ c' s = some Color.black ∧
        (∀ m, c m = some Color.black → c' m = some Color.black)) :
    ∀ (l : List String) (c c' : Colors), BlackOK g c → NoneNoSucc g c →
      dfsStep visit c l = some (false, c') →
      BlackOK g c' ∧ NoneNoSucc g c' ∧ (∀ s ∈ l, NoCycleFrom g s) ∧
        (∀ m, c m = some Color.black → c' m = some Color.black) := by
  intro l
  induction l with
  | nil =>
    intro c c' hb hn h
    simp only [dfsStep, Option.some.injEq, Prod.mk.injEq, true_and] at h
    subst h
    exact ⟨hb, hn, by simp, fun _ h => h⟩
  | cons s rest ih =>
    intro c c' hb hn h
    simp only [dfsStep] at h
    cases hcs : c s with
    | none =>
      rw [hcs] at h
      obtain ⟨hb', hn', hrest, hmono⟩ := ih c c' hb hn h
      refine ⟨hb', hn', ?_, hmono⟩
      intro t ht
      rcases List.mem_cons.mp ht with rfl | ht
      · exact noCycleFrom_of_no_succs g t (hn t hcs)
      · exact hrest t ht
    | some col =>
      cases col with
      | gray => rw [hcs] at h; simp at h
      | black =>
        rw [hcs] at h
        obtain ⟨hb', hn', hrest, hmono⟩ := ih c c' hb hn h
        refine ⟨hb', hn', ?_, hmono⟩
        intro t ht
        rcases List.mem_cons.mp ht with rfl | ht
        · exact hb t hcs
        · exact hrest t ht
      | white =>
        rw [hcs] at h
        cases hvis : visit c s with
        | none => rw [hvis] at h; simp at h
        | some p =>
          obtain ⟨b, c₂⟩ := p
          cases b with
          | true => rw [hvis] at h; simp at h
          | false =>
            rw [hvis] at h
            obtain ⟨hb₂, hn₂, hsblack, hmono₁⟩ := hv c s c₂ hcs hb hn hvis
            obtain ⟨hb', hn', hrest, hmono₂⟩ := ih c₂ c' hb₂ hn₂ h
            refine ⟨hb', hn', ?_, fun m hm => hmono₂ m (hmono₁ m hm)⟩
            intro t ht
            rcases List.mem_cons.mp ht with rfl | ht
            · exact hb₂ t hsblack
            · exact hrest t ht

theorem dfsVisit_complete (g : Graph) :
    ∀ (f : Nat) (c : Colors) (n : String) (c' : Colors), c n = some Color.white →
      BlackOK g c → NoneNoSucc g c → dfsVisit g f c n = some (false, c') →
      BlackOK g c' ∧ NoneNoSucc g c' ∧ c' n = some Color.black ∧
        (∀ m, c m = some Color.black → c' m = some Color.black) := by
  intro f
  induction f with
  | zero => intro c n c' _ _ _ h; simp [dfsVisit] at h
  | succ f ih =>
    intro c n c' hw hb hn h
    simp only [dfsVisit] at h
    cases hstep : dfsStep (dfsVisit g f) (updateC c n (some Color.gray)) (succs g n) with
    | none => rw [hstep] at h; simp at h
    | some p =>
      obtain ⟨b, c₂⟩ := p
      cases b with
      | true => rw [hstep] at h; simp at h
      | false =>
        rw [hstep] at h
        simp only [Option.some.injEq, Prod.mk.injEq, true_and] at h
        have hb₁ : BlackOK g (updateC c n (some Color.gray)) := by
          intro m hm
          by_cases hmn : m = n
          · subst hmn; rw [updateC_same] at hm; cases hm
          · rw [updateC_other _ _ _ _ hmn] at hm; exact hb m hm
        have hn₁ : NoneNoSucc g (updateC c n (some Color.gray)) := by
          intro m hm
          by_cases hmn : m = n
          · subst hmn; rw [updateC_same] at hm; cases hm
          · rw [updateC_other _ _ _ _ hmn] at hm; exact hn m hm
        obtain ⟨hb₂, hn₂, hsuccs, hmono⟩ :=
          dfsStep_complete g (dfsVisit g f) (fun c s c' hw hb hn hv => ih c s c' hw hb hn hv)
            (succs g n) _ c₂ hb₁ hn₁ hstep
        have hncf : NoCycleFrom g n := noCycleFrom_of_succs g n hsuccs
        subst h
        refine ⟨?_, ?_, updateC_same _ _ _, ?_⟩
        · intro m hm
          by_cases hmn : m = n
          · subst hmn; exact hncf
          · rw [updateC_other _ _ _ _ hmn] at hm; exact hb₂ m hm
        · intro m hm
          by_cases hmn : m = n
          · subst hmn; rw [updateC_same] at hm; cases hm
          · rw [updateC_other _ _ _ _ hmn] at hm; exact hn₂ m hm
        · intro m hm
          have hmn : m ≠ n := by
            intro he; subst he; rw [hw] at hm; cases hm
          rw [updateC_other _ _ _ _ hmn]
          refine hmono m ?_
          rw [updateC_other _ _ _ _ hmn]
          exact hm

theorem loopSeeds_false (g : Graph) (fuel : Nat) :
    ∀ (seeds : List String) (c : Colors),
      BlackOK g c → NoneNoSucc g c → (∀ m, c m ≠ some Color.gray) →
      (∀ m, c m = some Color.white → m ∈ seeds) →
      loopSeeds g fuel c seeds = some false → ¬ HasCycle g := by
  intro seeds
  induction seeds with
  | nil =>
    intro c hb hn hng hwhite _ hcyc
    obtain ⟨n, hc⟩ := hcyc
    cases hcn : c n with
    | none =>
      obtain ⟨y, hy, _⟩ := transGen_head hc
      rw [Edge, hn n hcn] at hy
      exact absurd hy (List.not_mem_nil y)
    | some col =>
      cases col with
      | white => exact absurd (hwhite n hcn) (List.not_mem_nil n)
      | gray => exact absurd hcn (hng n)
      | black => exact hb n hcn n Relation.ReflTransGen.refl hc
  | cons n rest ih =>
    intro c hb hn hng hwhite h
    simp only [loopSeeds] at h
    by_cases hcn : c n = some Color.white
    · rw [if_pos hcn] at h
      cases hvis : dfsVisit g fuel c n with
      | none => rw [hvis] at h; simp at h
      | some p =>
        obtain ⟨b, c'⟩ := p
        cases b with
        | true => rw [hvis] at h; simp at h
        | false =>
          rw [hvis] at h
          obtain ⟨hb', hn', hnblack, _⟩ := dfsVisit_complete g fuel c n c' hcn hb hn hvis
          have hch := dfsVisit_changes g fuel c n c' hcn hvis
          refine ih c' hb' hn' (fun m hm => hng m (hch.gray_back hm)) ?_ h
          intro m hm
          have hcm : c m = some Color.white := hch.white_back hm
          have hmem : m ∈ n :: rest := hwhite m hcm
          rcases List.mem_cons.mp hmem with rfl | hmem
          · rw [hnblack] at hm; cases hm
          · exact hmem
    · rw [if_neg hcn] at h
      refine ih c hb hn hng ?_ h
      intro m hm
      rcases List.mem_cons.mp (hwhite m hm) with rfl | hmem
      · exact absurd hm hcn
      · exact hmem

theorem whiteCount_mono (g : Graph) {c c' : Colors}
    (h : ∀ m, c' m = some Color.white → c m = some Color.white) :
    whiteCount g c' ≤ whiteCount g c := by
  refine List.countP_mono_left ?_
  intro x _ hx
  exact decide_eq_true (h x (of_decide_eq_true hx))

theorem whiteCount_update_gray (g : Graph) (c : Colors) (n : String)
    (hn : n ∈ (keys g).dedup) (hw : c n = some Color.white) :
    whiteCount g (updateC c n (some Color.gray)) + 1 = whiteCount g c := by
  have hperm := List.perm_cons_erase hn
  have hnodup := List.nodup_dedup (keys g)
  unfold whiteCount
  rw [List.Perm.countP_eq _ hperm, List.Perm.countP_eq _ hperm,
    List.countP_cons, List.countP_cons]
  have hcong : ((keys g).dedup.erase n).countP
      (fun m => decide (updateC c n (some Color.gray) m = some Color.white)) =
      ((keys g).dedup.erase n).countP (fun m => decide (c m = some Color.white)) := by
    refine List.countP_congr ?_
    intro x hx
    have hxn : x ≠ n := (hnodup.mem_erase_iff.mp hx).1
    rw [updateC_other _ _ _ _ hxn]
  rw [hcong]
  simp [updateC_same, hw]

theorem dfsStep_fuel (g : Graph) (f : Nat) (visit : Colors → String → Option (Bool × Colors))
    (hvf : ∀ c s c', c s = some Color.white → visit c s = some (false, c') → ChangesWB c c')
    (hv : ∀ c s, WhiteSub g c → c s = some Color.white → whiteCount g c ≤ f →
      visit c s ≠ none) :
    ∀ (l : List String) (c : Colors), WhiteSub g c → whiteCount g c ≤ f →
      dfsStep visit c l ≠ none := by
  intro l
  induction l with
  | nil => intro c _ _ h; simp [dfsStep] at h
  | cons s rest ih =>
    intro c hws hwc h
    simp only [dfsStep] at h
    cases hcs : c s with
    | none => rw [hcs] at h; exact ih c hws hwc h
    | some col =>
      cases col with
      | gray => rw [hcs] at h; simp at h
      | black => rw [hcs] at h; exact ih c hws hwc h
      | white =>
        rw [hcs] at h
        cases hvis : visit c s with
        | none => exact hv c s hws hcs hwc hvis
        | some p =>
          obtain ⟨b, c₂⟩ := p
          cases b with
          | true => rw [hvis] at h; simp at h
          | false =>
            rw [hvis] at h
            have hch := hvf c s c₂ hcs hvis
            exact ih c₂ (fun m hm => hws m (hch.white_back hm))
              (le_trans (whiteCount_mono g (fun m hm => hch.white_back hm)) hwc) h

theorem dfsVisit_fuel (g : Graph) :
    ∀ (f : Nat) (c : Colors) (n : String), WhiteSub g c → c n = some Color.white →
      whiteCount g c ≤ f → dfsVisit g f c n ≠ none := by
  intro f
  induction f with
  | zero =>
    intro c n hws hw hwc _
    have hpos : 0 < whiteCount g c :=
      List.countP_pos_iff.mpr ⟨n, hws n hw, decide_eq_true hw⟩
    omega
  | succ f ih =>
    intro c n hws hw hwc h
    simp only [dfsVisit] at h
    have hstep : dfsStep (dfsVisit g f) (updateC c n (some Color.gray)) (succs g n) ≠ none := by
      refine dfsStep_fuel g f (dfsVisit g f)
        (fun c s c' hw hv => dfsVisit_changes g f c s c' hw hv)
        (fun c s hws hw hwc => ih c s hws hw hwc)
        (succs g n) _ ?_ ?_
      · intro m hm
        by_cases hmn : m = n
        · subst hmn; rw [updateC_same] at hm; cases hm
        · rw [updateC_other _ _ _ _ hmn] at hm; exact hws m hm
      · have hdec := whiteCount_update_gray g c n (hws n hw) hw
        omega
    cases hstep2 : dfsStep (dfsVisit g f) (updateC c n (some Color.gray)) (succs g n) with
    | none => exact hstep hstep2
    | some p =>
      obtain ⟨b, c₂⟩ := p
      rw [hstep2] at h
      cases b with
      | true => simp at h
      | false => simp at h

theorem loopSeeds_fuel (g : Graph) :
    ∀ (seeds : List String) (c : Colors), WhiteSub g c →
      loopSeeds g (loopFuel g) c seeds ≠ none := by
  intro seeds
  induction seeds with
  | nil => intro c _ h; simp [loopSeeds] at h
  | cons n rest ih =>
    intro c hws h
    simp only [loopSeeds] at h
    by_cases hcn : c n = some Color.white
    · rw [if_pos hcn] at h
      have hfuel : whiteCount g c ≤ loopFuel g := by
        have h1 : whiteCount g c ≤ ((keys g).dedup).length := List.countP_le_length _
        have h2 : ((keys g).dedup).length ≤ (keys g).length :=
          (List.dedup_sublist (keys g)).length_le
        unfold loopFuel
        omega
      cases hvis : dfsVisit g (loopFuel g) c n with
      | none => exact dfsVisit_fuel g (loopFuel g) c n hws hcn hfuel hvis
      | some p =>
        obtain ⟨b, c'⟩ := p
        rw [hvis] at h
        cases b with
        | true => simp at h
        | false =>
          have hch := dfsVisit_changes g (loopFuel g) c n c' hcn hvis
          exact ih c' (fun m hm => hws m (hch.white_back hm)) h
    · rw [if_neg hcn] at h
      exact ih c hws h

theorem lookupStr_eq_none {β : Type} :
    ∀ (l : List (String × β)) (n : String), n ∉ l.map Prod.fst → lookupStr l n = none := by
  intro l
  induction l with
  | nil => intro n _; rfl
  | cons p t ih =>
    intro n hn
    obtain ⟨a, b⟩ := p
    simp only [List.map_cons, List.mem_cons] at hn
    push_neg at hn
    simp only [lookupStr, if_neg (Ne.symm hn.1)]
    exact ih n hn.2

theorem succs_of_not_key (g : Graph) (n : String) (h : n ∉ keys g) : succs g n = [] := by
  unfold succs
  rw [lookupStr_eq_none g n h]
  rfl

theorem initColors_whiteSub (g : Graph) : WhiteSub g (initColors g) := by
  intro m hm
  unfold initColors at hm
  split at hm
  · exact List.mem_dedup.mpr (by assumption)
  · cases hm

theorem containsLoopRun_ne_none (g : Graph) : containsLoopRun g ≠ none :=
  loopSeeds_fuel g (keys g) (initColors g) (initColors_whiteSub g)

theorem initColors_no_gray (g : Graph) : ∀ m, initColors g m ≠ some Color.gray := by
  intro m
  unfold initColors
  split <;> simp

theorem hasCycle_of_containsLoop_true (g : Graph) (h : containsLoop g = true) :
    HasCycle g := by
  unfold containsLoop at h
  cases hrun : containsLoopRun g with
  | none => rw [hrun] at h; simp at h
  | some b =>
    rw [hrun] at h
    simp only [Option.getD_some] at h
    subst h
    unfold containsLoopRun at hrun
    exact loopSeeds_true g (loopFuel g) (keys g) (initColors g) (initColors_no_gray g) hrun

theorem no_hasCycle_of_containsLoop_false (g : Graph) (h : containsLoop g = false) :
    ¬ HasCycle g := by
  intro hc
  unfold containsLoop at h
  cases hrun : containsLoopRun g with
  | none => exact containsLoopRun_ne_none g hrun
  | some b =>
    rw [hrun] at h
    simp only [Option.getD_some] at h
    subst h
    unfold containsLoopRun at hrun
    refine loopSeeds_false g (loopFuel g) (keys g) (initColors g) ?_ ?_
      (initColors_no_gray g) ?_ hrun hc
    · intro m hm
      unfold initColors at hm
      split at hm <;> cases hm
    · intro m hm
      unfold initColors at hm
      split at hm
      · cases hm
      · exact succs_of_not_key g m (by assumption)
    · intro m hm
      unfold initColors at hm
      split at hm
      · assumption
      · cases hm

/-- C2: `containsLoop` returns `true` exactly when the successor graph has a
directed cycle — in particular also when the cycle is not reachable from the
entry, since the search is seeded from every node. -/
theorem containsLoop_iff_hasCycle (g : Graph) : containsLoop g = true ↔ HasCycle g := by
  constructor
  · exact hasCycle_of_containsLoop_true g
  · intro hc
    cases hcl : containsLoop g with
    | true => rfl
    | false => exact absurd hc (no_hasCycle_of_containsLoop_false g hcl)

/-! ## Correctness of `consistencyCheck` -/

theorem lookupStr_mem {β : Type} :
    ∀ (l : List (String × β)) (k : String) (v : β), lookupStr l k = some v → (k, v) ∈ l := by
  intro l
  induction l with
  | nil => intro k v h; cases h
  | cons p t ih =>
    intro k v h
    obtain ⟨a, b⟩ := p
    simp only [lookupStr] at h
    by_cases hak : a = k
    · rw [if_pos hak] at h
      subst hak
      cases h
      exact List.mem_cons_self _ _
    · rw [if_neg hak] at h
      exact List.mem_cons_of_mem _ (ih k v h)

theorem lookupStr_key_mem {β : Type} (l : List (String × β)) (k : String) (v : β)
    (h : lookupStr l k = some v) : k ∈ l.map Prod.fst :=
  List.mem_map.mpr ⟨(k, v), lookupStr_mem l k v h, rfl⟩

theorem mem_allNodes_succ :
    ∀ (g : Graph) (a : String) (vs : List String) (b : String),
      (a, vs) ∈ g → b ∈ vs → b ∈ allNodes g := by
  intro g
  induction g with
  | nil => intro a vs b h _; cases h
  | cons kv t ih =>
    intro a vs b hmem hb
    rcases List.mem_cons.mp hmem with rfl | hmem
    · exact List.mem_cons_of_mem _ (List.mem_append_left _ hb)
    · exact List.mem_cons_of_mem _ (List.mem_append_right _ (ih a vs b hmem hb))

theorem mem_allNodes_key :
    ∀ (g : Graph) (a : String) (vs : List String), (a, vs) ∈ g → a ∈ allNodes g := by
  intro g
  induction g with
  | nil => intro a vs h; cases h
  | cons kv t ih =>
    intro a vs hmem
    rcases List.mem_cons.mp hmem with rfl | hmem
    · exact List.mem_cons_self _ _
    · exact List.mem_cons_of_mem _ (List.mem_append_right _ (ih a vs hmem))

theorem key_mem_allNodes (g : Graph) (a : String) (h : a ∈ keys g) : a ∈ allNodes g := by
  obtain ⟨p, hp, hfst⟩ := List.mem_map.mp h
  obtain ⟨a', vs⟩ := p
  cases hfst
  exact mem_allNodes_key g _ vs hp

theorem edge_target_mem (g : Graph) {a b : String} (h : Edge g a b) : b ∈ allNodes g := by
  unfold Edge succs at h
  cases hl : lookupStr g a with
  | none => rw [hl] at h; cases h
  | some vs =>
    rw [hl] at h
    exact mem_allNodes_succ g a vs b (lookupStr_mem g a vs hl) h

theorem edge_source_key (g : Graph) {a b : String} (h : Edge g a b) : a ∈ keys g := by
  unfold Edge succs at h
  cases hl : lookupStr g a with
  | none => rw [hl] at h; cases h
  | some vs => exact lookupStr_key_mem g a vs hl

theorem reach_mem (g : Graph) {a b : String} (h : Reach g a b) :
    b = a ∨ b ∈ allNodes g := by
  induction h with
  | refl => exact Or.inl rfl
  | tail _ hedge _ => exact Or.inr (edge_target_mem g hedge)

theorem not_nodup_split {α : Type} :
    ∀ (l : List α), ¬ l.Nodup →
      ∃ (l₁ : List α) (a : α) (l₂ l₃ : List α), l = l₁ ++ (a :: (l₂ ++ (a :: l₃))) := by
  intro l
  induction l with
  | nil => intro h; exact absurd List.nodup_nil h
  | cons x xs ih =>
    intro h
    by_cases hx : x ∈ xs
    · obtain ⟨s, t, hst⟩ := List.append_of_mem hx
      exact ⟨[], x, s, t, by rw [List.nil_append, hst]⟩
    · have hxs : ¬ xs.Nodup := fun hn => h (List.nodup_cons.mpr ⟨hx, hn⟩)
      obtain ⟨l₁, a, l₂, l₃, he⟩ := ih hxs
      exact ⟨x :: l₁, a, l₂, l₃, by rw [he]; rfl⟩

theorem chain_last_reflTransGen {r : String → String → Prop} :
    ∀ (l : List String) (a b : String),
      List.Chain r a (l ++ [b]) → Relation.ReflTransGen r a b := by
  intro l
  induction l with
  | nil =>
    intro a b h
    rw [List.nil_append, List.chain_singleton] at h
    exact Relation.ReflTransGen.single h
  | cons y ys ih =>
    intro a b h
    rw [List.cons_append, List.chain_cons] at h
    exact Relation.ReflTransGen.head h.1 (ih y b h.2)

theorem chain_elems_mem (g : Graph) :
    ∀ (l : List String) (a : String), List.Chain (Edge g) a l → ∀ x ∈ l, x ∈ allNodes g := by
  intro l
  induction l with
  | nil => intro a _ x hx; cases hx
  | cons y ys ih =>
    intro a h x hx
    rw [List.chain_cons] at h
    rcases List.mem_cons.mp hx with rfl | hx
    · exact edge_target_mem g h.1
    · exact ih y h.2 x hx

/-- In an acyclic graph every edge chain is no longer than the number of
distinct nodes. -/
theorem chain_length_le (g : Graph) (hacyc : ¬ HasCycle g) :
    ∀ (a : String) (l : List String), List.Chain (Edge g) a l →
      l.length ≤ ((allNodes g).dedup).length := by
  intro a l hchain
  by_contra hlen
  push_neg at hlen
  have hmem : ∀ x ∈ l, x ∈ allNodes g := chain_elems_mem g l a hchain
  have hnodup : ¬ l.Nodup := by
    intro hnd
    have h2 : l.toFinset ⊆ (allNodes g).toFinset := by
      intro x hx
      exact List.mem_toFinset.mpr (hmem x (List.mem_toFinset.mp hx))
    have h3 := Finset.card_le_card h2
    rw [List.card_toFinset, List.card_toFinset, hnd.dedup] at h3
    omega
  obtain ⟨l₁, m, l₂, l₃, rfl⟩ := not_nodup_split l hnodup
  have h1 : List.Chain (Edge g) m (l₂ ++ m :: l₃) := (List.chain_split.mp hchain).2
  have h2 : List.Chain (Edge g) m (l₂ ++ [m]) := (List.chain_split.mp h1).1
  apply hacyc
  refine ⟨m, ?_⟩
  cases l₂ with
  | nil =>
    rw [List.nil_append, List.chain_singleton] at h2
    exact Relation.TransGen.single h2
  | cons y ys =>
    rw [List.cons_append, List.chain_cons] at h2
    exact Relation.TransGen.head' h2.1 (chain_last_reflTransGen ys y m h2.2)

theorem updateV_same (v : Vis) (n : String) (b : Bool) : updateV v n b n = b := by
  simp [updateV]

theorem updateV_other (v : Vis) (n m : String) (b : Bool) (h : m ≠ n) :
    updateV v n b m = v m := by simp [updateV, h]

theorem dfsCStep_mono (visit : Vis → String → Option (Vis × Option CheckError))
    (hv : ∀ vis s p, visit vis s = some p → ∀ m, vis m = true → p.1 m = true) :
    ∀ (l : List String) (vis : Vis) (p : Vis × Option CheckError),
      dfsCStep visit vis l = some p → ∀ m, vis m = true → p.1 m = true := by
  intro l
  induction l with
  | nil =>
    intro vis p h m hm
    simp only [dfsCStep, Option.some.injEq] at h
    rw [← h]
    exact hm
  | cons s rest ih =>
    intro vis p h m hm
    simp only [dfsCStep] at h
    cases hvis : visit vis s with
    | none => rw [hvis] at h; cases h
    | some q =>
      obtain ⟨vis₁, r₁⟩ := q
      cases r₁ with
      | some e =>
        rw [hvis] at h
        simp only [Option.some.injEq] at h
        rw [← h]
        exact hv vis s (vis₁, some e) hvis m hm
      | none =>
        rw [hvis] at h
        exact ih vis₁ p h m (hv vis s (vis₁, none) hvis m hm)

theorem dfsC_mono (g : Graph) :
    ∀ (f : Nat) (vis : Vis) (n : String) (p : Vis × Option CheckError),
      dfsC g f vis n = some p → ∀ m, vis m = true → p.1 m = true := by
  intro f
  induction f with
  | zero => intro vis n p h; cases h
  | succ f ih =>
    intro vis n p h m hm
    simp only [dfsC] at h
    have hup : updateV vis n true m = true := by
      by_cases hmn : m = n
      · subst hmn; exact updateV_same _ _ _
      · rw [updateV_other _ _ _ _ hmn]; exact hm
    split at h
    · simp only [Option.some.injEq] at h
      rw [← h]
      exact hup
    · exact dfsCStep_mono (dfsC g f) (fun vis s p hp => ih vis s p hp) _ _ p h m hup

theorem dfsC_marks_self (g : Graph) :
    ∀ (f : Nat) (vis : Vis) (n : String) (p : Vis × Option CheckError),
      dfsC g f vis n = some p → p.1 n = true := by
  intro f
  induction f with
  | zero => intro vis n p h; cases h
  | succ f ih =>
    intro vis n p h
    simp only [dfsC] at h
    split at h
    · simp only [Option.some.injEq] at h
      rw [← h]
      exact updateV_same _ _ _
    · exact dfsCStep_mono (dfsC g f) (fun vis s p hp => dfsC_mono g f vis s p hp)
        _ _ p h n (updateV_same _ _ _)

theorem dfsCStep_success (g : Graph) (visit : Vis → String → Option (Vis × Option CheckError))
    (hv : ∀ vis s vis', visit vis s = some (vis', none) →
      ∀ m, Reach g s m → vis' m = true ∧ (succs g m ≠ [] ∨ m = sink))
    (hmono : ∀ vis s p, visit vis s = some p → ∀ m, vis m = true → p.1 m = true) :
    ∀ (l : List String) (vis vis' : Vis), dfsCStep visit vis l = some (vis', none) →
      (∀ m, vis m = true → vis' m = true) ∧
      (∀ s ∈ l, ∀ m, Reach g s m → vis' m = true ∧ (succs g m ≠ [] ∨ m = sink)) := by
  intro l
  induction l with
  | nil =>
    intro vis vis' h
    simp only [dfsCStep, Option.some.injEq, Prod.mk.injEq, and_true] at h
    subst h
    exact ⟨fun _ hm => hm, by simp⟩
  | cons s rest ih =>
    intro vis vis' h
    simp only [dfsCStep] at h
    cases hvis : visit vis s with
    | none => rw [hvis] at h; cases h
    | some q =>
      obtain ⟨vis₁, r₁⟩ := q
      cases r₁ with
      | some e => rw [hvis] at h; simp at h
      | none =>
        rw [hvis] at h
        obtain ⟨hmono₂, hrest⟩ := ih vis₁ vis' h
        refine ⟨fun m hm => hmono₂ m (hmono vis s (vis₁, none) hvis m hm), ?_⟩
        intro t ht m hreach
        rcases List.mem_cons.mp ht with rfl | ht
        · obtain ⟨hv1, hv2⟩ := hv vis t vis₁ hvis m hreach
          exact ⟨hmono₂ m hv1, hv2⟩
        · exact hrest t ht m hreach

theorem dfsC_success (g : Graph) :
    ∀ (f : Nat) (vis : Vis) (n : String) (vis' : Vis), dfsC g f vis n = some (vis', none) →
      ∀ m, Reach g n m → vis' m = true ∧ (succs g m ≠ [] ∨ m = sink) := by
  intro f
  induction f with
  | zero => intro vis n vis' h; cases h
  | succ f ih =>
    intro vis n vis' h m hreach
    simp only [dfsC] at h
    by_cases hcond : succs g n = [] ∧ n ≠ sink
    · rw [if_pos hcond] at h; simp at h
    · rw [if_neg hcond] at h
      obtain ⟨hmono, hsuccs⟩ :=
        dfsCStep_success g (dfsC g f) (fun vis s vis' hp => ih vis s vis' hp)
          (fun vis s p hp => dfsC_mono g f vis s p hp) (succs g n) _ vis' h
      rcases hreach.cases_head with heq | ⟨s, hs, hsm⟩
      · subst heq
        refine ⟨hmono n (updateV_same _ _ _), ?_⟩
        by_cases hsn : succs g n = []
        · right
          by_contra hns
          exact hcond ⟨hsn, hns⟩
        · exact Or.inl hsn
      · exact hsuccs s hs m hsm

theorem dfsCStep_marks (g : Graph) (visit : Vis → String → Option (Vis × Option CheckError))
    (hv : ∀ vis s p, visit vis s = some p → ∀ m, p.1 m = true → vis m = true ∨ Reach g s m) :
    ∀ (l : List String) (vis : Vis) (p : Vis × Option CheckError),
      dfsCStep visit vis l = some p →
      ∀ m, p.1 m = true → vis m = true ∨ ∃ s ∈ l, Reach g s m := by
  intro l
  induction l with
  | nil =>
    intro vis p h m hm
    simp only [dfsCStep, Option.some.injEq] at h
    rw [← h] at hm
    exact Or.inl hm
  | cons s rest ih =>
    intro vis p h m hm
    simp only [dfsCStep] at h
    cases hvis : visit vis s with
    | none => rw [hvis] at h; cases h
    | some q =>
      obtain ⟨vis₁, r₁⟩ := q
      cases r₁ with
      | some e =>
        rw [hvis] at h
        simp only [Option.some.injEq] at h
        rw [← h] at hm
        rcases hv vis s (vis₁, some e) hvis m hm with h' | h'
        · exact Or.inl h'
        · exact Or.inr ⟨s, List.mem_cons_self _ _, h'⟩
      | none =>
        rw [hvis] at h
        rcases ih vis₁ p h m hm with h' | ⟨s', hs', hr⟩
        · rcases hv vis s (vis₁, none) hvis m h' with h'' | h''
          · exact Or.inl h''
          · exact Or.inr ⟨s, List.mem_cons_self _ _, h''⟩
        · exact Or.inr ⟨s', List.mem_cons_of_mem _ hs', hr⟩

theorem dfsC_marks (g : Graph) :
    ∀ (f : Nat) (vis : Vis) (n : String) (p : Vis × Option CheckError),
      dfsC g f vis n = some p → ∀ m, p.1 m = true → vis m = true ∨ Reach g n m := by
  intro f
  induction f with
  | zero => intro vis n p h; cases h
  | succ f ih =>
    intro vis n p h m hm
    simp only [dfsC] at h
    have hcase : updateV vis n true m = true → vis m = true ∨ Reach g n m := by
      intro hup
      by_cases hmn : m = n
      · subst hmn; exact Or.inr Relation.ReflTransGen.refl
      · rw [updateV_other _ _ _ _ hmn] at hup; exact Or.inl hup
    split at h
    · simp only [Option.some.injEq] at h
      rw [← h] at hm
      exact hcase hm
    · rcases dfsCStep_marks g (dfsC g f) (fun vis s p hp => ih vis s p hp)
        (succs g n) _ p h m hm with h' | ⟨s, hs, hr⟩
      · exact hcase h'
      · exact Or.inr (Relation.ReflTransGen.head hs hr)

theorem dfsCStep_error (g : Graph) (visit : Vis → String → Option (Vis × Option CheckError))
    (hv : ∀ vis s vis' e, visit vis s = some (vis', some e) →
      ∃ m, Reach g s m ∧ succs g m = [] ∧ m ≠ sink) :
    ∀ (l : List String) (vis vis' : Vis) (e : CheckError),
      dfsCStep visit vis l = some (vis', some e) →
      ∃ s ∈ l, ∃ m, Reach g s m ∧ succs g m = [] ∧ m ≠ sink := by
  intro l
  induction l with
  | nil => intro vis vis' e h; simp [dfsCStep] at h
  | cons s rest ih =>
    intro vis vis' e h
    simp only [dfsCStep] at h
    cases hvis : visit vis s with
    | none => rw [hvis] at h; cases h
    | some q =>
      obtain ⟨vis₁, r₁⟩ := q
      cases r₁ with
      | some e₁ =>
        rw [hvis] at h
        obtain ⟨m, hm⟩ := hv vis s vis₁ e₁ hvis
        exact ⟨s, List.mem_cons_self _ _, m, hm⟩
      | none =>
        rw [hvis] at h
        obtain ⟨s', hs', m, hm⟩ := ih vis₁ vis' e h
        exact ⟨s', List.mem_cons_of_mem _ hs', m, hm⟩

theorem dfsC_error (g : Graph) :
    ∀ (f : Nat) (vis : Vis) (n : String) (vis' : Vis) (e : CheckError),
      dfsC g f vis n = some (vis', some e) →
      ∃ m, Reach g n m ∧ succs g m = [] ∧ m ≠ sink := by
  intro f
  induction f with
  | zero => intro vis n vis' e h; cases h
  | succ f ih =>
    intro vis n vis' e h
    simp only [dfsC] at h
    by_cases hcond : succs g n = [] ∧ n ≠ sink
    · exact ⟨n, Relation.ReflTransGen.refl, hcond⟩
    · rw [if_neg hcond] at h
      obtain ⟨s, hs, m, hr, hm⟩ :=
        dfsCStep_error g (dfsC g f) (fun vis s vis' e hp => ih vis s vis' e hp)
          (succs g n) _ vis' e h
      exact ⟨m, Relation.ReflTransGen.head hs hr, hm⟩

theorem dfsCStep_fuel (g : Graph) (f : Nat)
    (visit : Vis → String → Option (Vis × Option CheckError))
    (hv : ∀ vis s, (∀ l', List.Chain (Edge g) s l' → l'.length < f) → visit vis s ≠ none) :
    ∀ (l : List String) (vis : Vis),
      (∀ s ∈ l, ∀ l', List.Chain (Edge g) s l' → l'.length < f) →
      dfsCStep visit vis l ≠ none := by
  intro l
  induction l with
  | nil => intro vis _ h; simp [dfsCStep] at h
  | cons s rest ih =>
    intro vis hch h
    simp only [dfsCStep] at h
    cases hvis : visit vis s with
    | none => exact hv vis s (hch s (List.mem_cons_self _ _)) hvis
    | some q =>
      obtain ⟨vis₁, r₁⟩ := q
      cases r₁ with
      | some e => rw [hvis] at h; cases h
      | none =>
        rw [hvis] at h
        exact ih vis₁ (fun t ht => hch t (List.mem_cons_of_mem _ ht)) h

theorem dfsC_fuel (g : Graph) :
    ∀ (f : Nat) (vis : Vis) (n : String),
      (∀ l', List.Chain (Edge g) n l' → l'.length < f) → dfsC g f vis n ≠ none := by
  intro f
  induction f with
  | zero =>
    intro vis n hch _
    have := hch [] List.Chain.nil
    omega
  | succ f ih =>
    intro vis n hch h
    simp only [dfsC] at h
    split at h
    · cases h
    · refine dfsCStep_fuel g f (dfsC g f) (fun vis s hs => ih vis s hs) (succs g n) _ ?_ h
      intro s hs l' hl'
      have := hch (s :: l') (List.Chain.cons hs hl')
      simpa using Nat.lt_of_succ_lt_succ (by simpa using this)

/-- C1 (amended): for an acyclic candidate adjacency map, `consistencyCheck`
returns an error iff some non-exit node of the adjacency map (the entry
included) has no outgoing successor edge, or some node of the adjacency map
is not reached by the traversal from the entry; with no dangling node, an
unreachable node yields specifically an unreachable-stage error.  Stages of
the stage mapping that occur in no dependency edge are not nodes of the
adjacency map and are not checked (see the counterexample). -/
theorem consistencyCheck_error_iff (g : Graph) (hacyc : ¬ HasCycle g) :
    ((∃ e, consistencyCheck g = some (some e)) ↔
      (∃ n ∈ Input :: allNodes g, n ≠ sink ∧ succs g n = []) ∨
      (∃ n ∈ allNodes g, ¬ Reach g Input n)) ∧
    consistencyCheck g ≠ none ∧
    ((∀ n ∈ Input :: allNodes g, n ≠ sink → succs g n ≠ []) →
      ∀ n ∈ allNodes g, ¬ Reach g Input n →
        ∃ u, consistencyCheck g = some (some (CheckError.unreachable u)) ∧
          u ∈ allNodes g ∧ ¬ Reach g Input u) := by
  have hfuel : dfsC g (checkFuel g) (fun _ => false) Input ≠ none := by
    apply dfsC_fuel
    intro l' hl'
    have h1 := chain_length_le g hacyc Input l' hl'
    have h2 : ((allNodes g).dedup).length ≤ (allNodes g).length :=
      (List.dedup_sublist _).length_le
    unfold checkFuel
    omega
  cases hdfs : dfsC g (checkFuel g) (fun _ => false) Input with
  | none => exact absurd hdfs hfuel
  | some p =>
    obtain ⟨vis, r⟩ := p
    cases r with
    | some e =>
      have hresult : consistencyCheck g = some (some e) := by
        unfold consistencyCheck
        rw [hdfs]
      obtain ⟨m, hreach, hsucc, hsink⟩ := dfsC_error g (checkFuel g) _ Input vis e hdfs
      have hmem : m ∈ Input :: allNodes g := by
        rcases reach_mem g hreach with rfl | hm
        · exact List.mem_cons_self _ _
        · exact List.mem_cons_of_mem _ hm
      refine ⟨⟨fun _ => Or.inl ⟨m, hmem, hsink, hsucc⟩, fun _ => ⟨e, hresult⟩⟩, ?_, ?_⟩
      · rw [hresult]; simp
      · intro hA _ _ _
        exact absurd hsucc (hA m hmem hsink)
    | none =>
      cases hfind : (allNodes g).find? (fun m => !vis m) with
      | some u =>
        have hresult : consistencyCheck g = some (some (CheckError.unreachable u)) := by
          unfold consistencyCheck
          rw [hdfs]
          simp only [hfind]
        have hu_mem : u ∈ allNodes g := List.mem_of_find?_eq_some hfind
        have hu_vis : vis u = false := by
          have := List.find?_some hfind
          simpa using this
        have hu_nreach : ¬ Reach g Input u := by
          intro hr
          have := (dfsC_success g (checkFuel g) _ Input vis hdfs u hr).1
          rw [hu_vis] at this
          cases this
        refine ⟨⟨fun _ => Or.inr ⟨u, hu_mem, hu_nreach⟩,
          fun _ => ⟨CheckError.unreachable u, hresult⟩⟩, ?_, ?_⟩
        · rw [hresult]; simp
        · intro _ _ _ _
          exact ⟨u, hresult, hu_mem, hu_nreach⟩
      | none =>
        have hresult : consistencyCheck g = some none := by
          unfold consistencyCheck
          rw [hdfs]
          simp only [hfind]
        have hallvis : ∀ x ∈ allNodes g, vis x = true := by
          intro x hx
          have := List.find?_eq_none.mp hfind x hx
          simpa using this
        have hreach_all : ∀ x ∈ allNodes g, Reach g Input x := by
          intro x hx
          rcases dfsC_marks g (checkFuel g) _ Input (vis, none) hdfs x (hallvis x hx)
            with h' | h'
          · cases h'
          · exact h'
        refine ⟨⟨?_, ?_⟩, ?_, ?_⟩
        · intro ⟨e, he⟩
          rw [hresult] at he
          simp at he
        · intro hAB
          exfalso
          rcases hAB with ⟨n, hmem, hnsink, hnsucc⟩ | ⟨n, hmem, hnreach⟩
          · have hrn : Reach g Input n := by
              rcases List.mem_cons.mp hmem with rfl | hm
              · exact Relation.ReflTransGen.refl
              · exact hreach_all n hm
            have := (dfsC_success g (checkFuel g) _ Input vis hdfs n hrn).2
            rcases this with h' | h'
            · exact h' hnsucc
            · exact hnsink h'
          · exact hnreach (hreach_all n hmem)
        · rw [hresult]; simp
        · intro _ n hn hnr
          exact absurd (hreach_all n hn) hnr

/-- C1 witness: the repository's "normal execution" topology is acyclic and
the consistency check terminates on it (instantiating the main theorem). -/
theorem consistencyCheck_error_iff_witness :
    ¬ HasCycle gNormal ∧ consistencyCheck gNormal ≠ none := by
  have hacyc : ¬ HasCycle gNormal :=
    no_hasCycle_of_containsLoop_false gNormal (by decide)
  exact ⟨hacyc, (consistencyCheck_error_iff gNormal hacyc).2.1⟩

/-- C1 counterexample: `smIso` is a stage mapping holding the entry, the exit
and the ordinary stage "iso"; "iso" is a non-exit stage with no outgoing
successor edge and is never visited by the traversal from the entry, yet the
consistency check (and the whole analysis) accepts the topology with no
error, because "iso" takes part in no dependency edge and so is absent from
the successor adjacency map. -/
theorem consistencyCheck_misses_isolated_stage :
    (lookupStr smIso Input).isSome = true ∧
    (lookupStr smIso sink).isSome = true ∧
    (lookupStr smIso "iso").isSome = true ∧
    "iso" ≠ sink ∧
    succs gIso "iso" = [] ∧
    ¬ Reach gIso Input "iso" ∧
    consistencyCheck gIso = some none ∧
    analyze smIso = none := by
  refine ⟨by decide, by decide, by decide, by decide, by decide, ?_, by decide, by decide⟩
  intro hr
  rcases reach_mem gIso hr with heq | hmem
  · exact absurd heq (by decide)
  · exact absurd hmem (by decide)

/-! ## Construction-time properties -/

theorem insertGo_insertGo {V : Type} :
    ∀ (m : StageMap V) (k : String) (v₁ v₂ : Stage V),
      insertGo (insertGo m k v₁) k v₂ = insertGo m k v₂ := by
  intro m
  induction m with
  | nil => intro k v₁ v₂; simp [insertGo]
  | cons p t ih =>
    intro k v₁ v₂
    obtain ⟨a, b⟩ := p
    by_cases hak : a = k
    · simp [insertGo, hak]
    · simp only [insertGo, if_neg hak]
      rw [ih]

theorem lookupStr_insertGo_same {V : Type} :
    ∀ (m : StageMap V) (k : String) (v : Stage V), lookupStr (insertGo m k v) k = some v := by
  intro m
  induction m with
  | nil => intro k v; simp [insertGo, lookupStr]
  | cons p t ih =>
    intro k v
    obtain ⟨a, b⟩ := p
    by_cases hak : a = k
    · simp [insertGo, hak, lookupStr]
    · simp only [insertGo, if_neg hak, lookupStr]
      exact ih k v

theorem addCallerStages_error {V : Type} :
    ∀ (stages : List (Stage V)) (m : StageMap V),
      (∃ s ∈ stages, s.label = Input ∨ s.label = sink) →
      ∃ s, stages.find? (fun s => decide (s.label = Input) || decide (s.label = sink)) = some s ∧
        s ∈ stages ∧ (s.label = Input ∨ s.label = sink) ∧
        addCallerStages m stages = .error (.labelInterference s.label) := by
  intro stages
  induction stages with
  | nil => intro m h; simp at h
  | cons s rest ih =>
    intro m h
    by_cases hs : s.label = Input ∨ s.label = sink
    · refine ⟨s, ?_, List.mem_cons_self _ _, hs, ?_⟩
      · rw [List.find?_cons_of_pos]
        simpa using hs
      · simp [addCallerStages, if_pos hs]
    · have hrest : ∃ t ∈ rest, t.label = Input ∨ t.label = sink := by
        rcases h with ⟨t, ht, hlab⟩
        rcases List.mem_cons.mp ht with rfl | ht
        · exact absurd hlab hs
        · exact ⟨t, ht, hlab⟩
      obtain ⟨t, hfind, htmem, htlab, herr⟩ := ih (insertGo m s.label s) hrest
      refine ⟨t, ?_, List.mem_cons_of_mem _ htmem, htlab, ?_⟩
      · rw [List.find?_cons_of_neg]
        · exact hfind
        · simpa using hs
      · simp only [addCallerStages, if_neg hs]
        exact herr

/-- C9: a caller-supplied stage whose label equals a reserved terminal label
makes construction fail with a collision error naming the offending label
(the first offender in argument order); no execution graph is returned, and
the model's construction allocates nothing else. -/
theorem newExecutionGraph_reserved_collision {V : Type} (final : Stage V)
    (stages : List (Stage V))
    (h : ∃ s ∈ stages, s.label = Input ∨ s.label = sink) :
    ∃ s, stages.find? (fun s => decide (s.label = Input) || decide (s.label = sink)) = some s ∧
      s ∈ stages ∧ (s.label = Input ∨ s.label = sink) ∧
      NewExecutionGraph final stages = .error (.labelInterference s.label) := by
  obtain ⟨s, hfind, hmem, hlab, herr⟩ :=
    addCallerStages_error stages (insertGo (insertGo [] Input (inputStage V)) sink final) h
  refine ⟨s, hfind, hmem, hlab, ?_⟩
  unfold NewExecutionGraph
  rw [herr]

/-- C9 witness: a stage labeled with the entry's reserved label is rejected. -/
theorem newExecutionGraph_reserved_collision_witness :
    (∃ s ∈ ([NewStage Input (fun _ => (none, none)) []] : List (Stage Int)),
      s.label = Input ∨ s.label = sink) ∧
    ∃ s : Stage Int, NewExecutionGraph (NewFinalStage (V := Int) (fun _ => (none, none)) [Input])
      [NewStage Input (fun _ => (none, none)) []] =
      .error (.labelInterference s.label) := by
  have h : ∃ s ∈ [NewStage (V := Int) Input (fun _ => (none, none)) []],
      s.label = Input ∨ s.label = sink :=
    ⟨_, List.mem_cons_self _ _, Or.inl rfl⟩
  obtain ⟨s, _, _, _, herr⟩ := newExecutionGraph_reserved_collision
    (NewFinalStage (fun _ => (none, none)) [Input]) _ h
  exact ⟨h, s, herr⟩

theorem addCallerStages_dup {V : Type} (s₁ s₂ : Stage V)
    (hlab : s₁.label = s₂.label) (h₁ : ¬ (s₁.label = Input ∨ s₁.label = sink)) :
    ∀ (stages : List (Stage V)) (m : StageMap V),
      addCallerStages m (stages ++ [s₁, s₂]) = addCallerStages m (stages ++ [s₂]) := by
  intro stages
  induction stages with
  | nil =>
    intro m
    have h₂ : ¬ (s₂.label = Input ∨ s₂.label = sink) := by
      rw [← hlab]
      exact h₁
    simp only [List.nil_append, addCallerStages, if_neg h₁, if_neg h₂]
    rw [← hlab, insertGo_insertGo]
  | cons s rest ih =>
    intro m
    by_cases hs : s.label = Input ∨ s.label = sink
    · simp [addCallerStages, if_pos hs]
    · simp only [List.cons_append, addCallerStages, if_neg hs]
      exact ih (insertGo m s.label s)

/-- C10: two ordinary stages with the same (non-reserved) label raise no
duplication error: construction behaves exactly as if only the later stage
had been passed — the later silently replaces the earlier in the stage map
(`lookupStr` of the built map returns the later stage) and validation
proceeds on the surviving mapping. -/
theorem newExecutionGraph_duplicate_label {V : Type} (final : Stage V)
    (stages : List (Stage V)) (s₁ s₂ : Stage V)
    (hlab : s₁.label = s₂.label)
    (h₁ : s₁.label ≠ Input) (h₂ : s₁.label ≠ sink) :
    NewExecutionGraph final (stages ++ [s₁, s₂]) =
      NewExecutionGraph final (stages ++ [s₂]) ∧
    (∀ m : StageMap V,
      lookupStr (insertGo (insertGo m s₁.label s₁) s₂.label s₂) s₁.label = some s₂) := by
  have hno : ¬ (s₁.label = Input ∨ s₁.label = sink) := by
    rintro (h | h)
    · exact h₁ h
    · exact h₂ h
  constructor
  · unfold NewExecutionGraph
    rw [addCallerStages_dup s₁ s₂ hlab hno]
  · intro m
    rw [hlab, insertGo_insertGo]
    exact lookupStr_insertGo_same m s₂.label s₂

/-- C10 witness: two stages both labeled "b"; the later defines the map
entry and construction equals construction with only the later one. -/
theorem newExecutionGraph_duplicate_label_witness :
    NewExecutionGraph (NewFinalStage (V := Int) (fun _ => (none, none)) ["b"])
      [NewStage "b" (fun _ => (some 1, none)) [Input],
       NewStage "b" (fun _ => (some 2, none)) [Input]] =
    NewExecutionGraph (NewFinalStage (fun _ => (none, none)) ["b"])
      [NewStage "b" (fun _ => (some 2, none)) [Input]] := by
  have h := newExecutionGraph_duplicate_label
    (NewFinalStage (V := Int) (fun _ => (none, none)) ["b"]) []
    (NewStage "b" (fun _ => (some 1, none)) [Input])
    (NewStage "b" (fun _ => (some 2, none)) [Input])
    rfl (by decide) (by decide)
  simpa using h.1

/-- C4: the five-stage example graph (b = x−1, c = x+2, d = x+5 from the
input; e = c·d; exit = b+e) constructs successfully, and one invocation with
integer input x returns b + c·d = (x−1) + (x+2)·(x+5) with no error; at
x = 1, 2, −4, 0 the results are 18, 29, −7 and 9. -/
theorem example_graph_end_to_end :
    NewExecutionGraph exampleFinal exampleStages = .ok ⟨exampleSM⟩ ∧
    (∀ x : Int, invoke (ExecutionGraph.Run ⟨exampleSM⟩) (some x) =
      .returned (some ((x - 1) + (x + 2) * (x + 5))) none) ∧
    invoke (ExecutionGraph.Run ⟨exampleSM⟩) (some 1) = .returned (some 18) none ∧
    invoke (ExecutionGraph.Run ⟨exampleSM⟩) (some 2) = .returned (some 29) none ∧
    invoke (ExecutionGraph.Run ⟨exampleSM⟩) (some (-4)) = .returned (some (-7)) none ∧
    invoke (ExecutionGraph.Run ⟨exampleSM⟩) (some 0) = .returned (some 9) none := by
  refine ⟨by rfl, fun x => rfl, by decide, by decide, by decide, by decide⟩

/-! ## Round-level error policy -/

theorem foldErr_eq {V : Type} :
    ∀ (envs : List (either V)) (a : Option GoErr),
      envs.foldl (fun acc e => match e.err with | some er => some er | none => acc) a =
        match (envs.filterMap (fun e => e.err)).getLast? with
        | some er => some er
        | none => a := by
  intro envs
  induction envs with
  | nil => intro a; rfl
  | cons e t ih =>
    intro a
    rw [List.foldl_cons, List.filterMap_cons]
    cases he : e.err with
    | none =>
      simp only [he]
      exact ih a
    | some er =>
      simp only [he]
      rw [ih (some er)]
      cases hfm : (t.filterMap (fun e => e.err)) with
      | nil => simp
      | cons b bs =>
        rw [List.getLast?_cons_cons]
        obtain ⟨v, hv⟩ :=
          Option.isSome_iff_exists.mp (List.getLast?_isSome.mpr (List.cons_ne_nil b bs))
        rw [hv]

theorem lastErr_eq {V : Type} (envs : List (either V)) :
    lastErr envs = (envs.filterMap (fun e => e.err)).getLast? := by
  unfold lastErr
  rw [foldErr_eq envs none]
  cases (envs.filterMap (fun e => e.err)).getLast? <;> rfl

/-- C6: when at least one inbound envelope of a round carries an error, the
worker computes nothing — the round's envelope is an error envelope whose
error is the last (highest-index) inbound error, unchanged (not re-wrapped
with the worker's label) and with no value; the computation is never
consulted (any replacement computation yields the same envelope), and the
identical envelope is sent to every outbound pipe. -/
theorem roundResult_error_policy {V : Type} (st : Stage V) (envs : List (either V))
    (h : ∃ e ∈ envs, e.err ≠ none) :
    roundResult st envs =
      ⟨none, (envs.filterMap (fun e => e.err)).getLast?⟩ ∧
    (∀ exec', roundResult ⟨st.label, st.requires, exec'⟩ envs = roundResult st envs) ∧
    (∀ outs : List Pipe, fanOut (roundResult st envs) outs =
      outs.map (fun p => (p, (⟨none, (envs.filterMap (fun e => e.err)).getLast?⟩ : either V)))) := by
  obtain ⟨e, hmem, hne⟩ := h
  cases he : e.err with
  | none => exact absurd he hne
  | some er =>
    have hfm : er ∈ envs.filterMap (fun e => e.err) :=
      List.mem_filterMap.mpr ⟨e, hmem, he⟩
    have hlast : (envs.filterMap (fun e => e.err)).getLast?.isSome = true :=
      List.getLast?_isSome.mpr (List.ne_nil_of_mem hfm)
    obtain ⟨er', her'⟩ := Option.isSome_iff_exists.mp hlast
    have hle : lastErr envs = some er' := by
      rw [lastErr_eq, her']
    have hmain : roundResult st envs = ⟨none, (envs.filterMap (fun e => e.err)).getLast?⟩ := by
      unfold roundResult
      rw [hle, her']
    refine ⟨hmain, ?_, ?_⟩
    · intro exec'
      unfold roundResult
      rw [hle]
    · intro outs
      rw [hmain]
      rfl

/-- C6 witness: with two failing inputs only the last error survives, the
value is nil, and the computation is not run. -/
theorem roundResult_error_policy_witness :
    (∃ e ∈ errEnvs, e.err ≠ none) ∧
    roundResult errStage errEnvs = ⟨none, some (.user "e2")⟩ := by
  have h : ∃ e ∈ errEnvs, e.err ≠ none :=
    ⟨_, List.mem_cons_self _ _, by decide⟩
  refine ⟨h, ?_⟩
  rw [(roundResult_error_policy errStage errEnvs h).1]
  decide

/-- C8 counterexample: `runStage` builds `either{Value: val, Err: err}` from
whatever the computation returned, so a computation returning both a value
and an error broadcasts an envelope carrying both. -/
theorem envelope_with_both_value_and_error :
    roundResult bothStage [⟨some 1, none⟩] =
      ⟨some 7, some (.wrap "both" (.user "boom"))⟩ ∧
    (roundResult bothStage [⟨some 1, none⟩]).value ≠ none ∧
    (roundResult bothStage [⟨some 1, none⟩]).err ≠ none := by
  decide

/-- C8 (amended): a propagated error envelope never carries a value; an
envelope carries both a non-nil value and a non-nil error only when the
stage's own computation returned both, so for stages whose computation
returns a nil value whenever it returns an error, no transmitted envelope
carries both. -/
theorem envelope_value_or_error {V : Type} (st : Stage V) (envs : List (either V)) :
    ((∃ e ∈ envs, e.err ≠ none) → (roundResult st envs).value = none) ∧
    ((∀ args, (st.exec args).2 ≠ none → (st.exec args).1 = none) →
      ¬ ((roundResult st envs).value ≠ none ∧ (roundResult st envs).err ≠ none)) := by
  constructor
  · intro h
    rw [(roundResult_error_policy st envs h).1]
  · intro hexec hboth
    obtain ⟨hval, herr⟩ := hboth
    unfold roundResult at hval herr
    cases hle : lastErr envs with
    | some er =>
      rw [hle] at hval
      exact hval rfl
    | none =>
      rw [hle] at hval herr
      simp only at hval herr
      cases hr : (st.exec (envs.map (fun e => e.value))).2 with
      | none =>
        rw [hr] at herr
        exact herr rfl
      | some er =>
        have := hexec (envs.map (fun e => e.value)) (by rw [hr]; simp)
        rw [this] at hval
        exact hval rfl

/-- C7 counterexample: a post-teardown invocation does not surface a
"network collapsed" error value — it panics (Go: send on closed channel),
and no `returned` outcome (value or error) is produced. -/
theorem invoke_after_collapse_panics :
    invoke nwCollapsed (some 1) = .panicked "send on closed channel" ∧
    (∀ v e, invoke nwCollapsed (some 1) ≠ .returned v e) := by
  refine ⟨rfl, ?_⟩
  intro v e h
  have hp : invoke nwCollapsed (some 1) = .panicked "send on closed channel" := rfl
  rw [hp] at h
  simp at h

/-- C7 (amended): after teardown no invocation on the instance succeeds
normally — every invocation attempt deterministically panics on the closed
ingress channel, rather than returning a value or a defined error. -/
theorem invoke_after_collapse {V : Type} (nw : FlowNetwork V) (x : Option V)
    (h : nw.ingressOpen = false) :
    invoke nw x = .panicked "send on closed channel" ∧
    (∀ v e, invoke nw x ≠ .returned v e) := by
  have hinv : invoke nw x = .panicked "send on closed channel" := by
    unfold invoke
    rw [h]
    simp
  refine ⟨hinv, ?_⟩
  intro v e hc
  rw [hinv] at hc
  simp at hc

/-- C7 witness: the collapsed example network panics on a fresh input. -/
theorem invoke_after_collapse_witness :
    nwCollapsed.ingressOpen = false ∧
    invoke nwCollapsed (some 2) = .panicked "send on closed channel" :=
  ⟨rfl, (invoke_after_collapse nwCollapsed (some 2) rfl).1⟩

theorem drainLoop_spec {V : Type} (k : Nat) (envs : Nat → either V) (S : List Nat)
    (hS : ∀ j ∈ S, j < k) :
    ∀ (st : ReadLoop V),
      (∀ j, st.slots j = if j ∈ S then some (envs j) else none) →
      (∀ j, j < st.next → j ∈ S) →
      st.args = (List.range st.next).map envs →
      st.trace = List.range st.next →
      (drainLoop k st).slots = st.slots ∧
      (∀ j, j < (drainLoop k st).next → j ∈ S) ∧
      (drainLoop k st).next ∉ S ∧
      (drainLoop k st).args = (List.range (drainLoop k st).next).map envs ∧
      (drainLoop k st).trace = List.range (drainLoop k st).next := by
  intro st
  generalize hm : k - st.next = m
  induction m generalizing st with
  | zero =>
    intro h1 h2 h3 h4
    have hnk : ¬ st.next < k := by omega
    rw [drainLoop, dif_neg hnk]
    refine ⟨rfl, h2, ?_, h3, h4⟩
    intro hmem
    exact hnk (hS _ hmem)
  | succ m ih =>
    intro h1 h2 h3 h4
    have hnk : st.next < k := by omega
    rw [drainLoop, dif_pos hnk]
    cases hs : st.slots st.next with
    | none =>
      refine ⟨rfl, h2, ?_, h3, h4⟩
      intro hmem
      rw [h1 st.next, if_pos hmem] at hs
      cases hs
    | some e =>
      have hmem : st.next ∈ S := by
        by_contra hnm
        rw [h1 st.next, if_neg hnm] at hs
        cases hs
      have he : e = envs st.next := by
        rw [h1 st.next, if_pos hmem] at hs
        cases hs
        rfl
      have hrec := ih { st with
          next := st.next + 1
          args := st.args ++ [e]
          trace := st.trace ++ [st.next] }
        (by show k - (st.next + 1) = m; omega)
        (by intro j; exact h1 j)
        (by
          intro j hj
          have hj' : j < st.next + 1 := hj
          rcases Nat.lt_succ_iff_lt_or_eq.mp hj' with hj'' | hj''
          · exact h2 j hj''
          · rw [hj'']; exact hmem)
        (by
          show st.args ++ [e] = (List.range (st.next + 1)).map envs
          rw [List.range_succ, List.map_append, h3, he]
          simp)
        (by
          show st.trace ++ [st.next] = List.range (st.next + 1)
          rw [List.range_succ, h4])
      exact hrec

theorem runReader_foldl {V : Type} (k : Nat) (envs : Nat → either V) :
    ∀ (sched S : List Nat) (st : ReadLoop V),
      (∀ j ∈ S ++ sched, j < k) →
      (∀ j, st.slots j = if j ∈ S then some (envs j) else none) →
      (∀ j, j < st.next → j ∈ S) →
      st.next ∉ S →
      st.args = (List.range st.next).map envs →
      st.trace = List.range st.next →
      (∀ j, j < (sched.foldl (fun st i => deliver k st i (envs i)) st).next →
        j ∈ S ++ sched) ∧
      (sched.foldl (fun st i => deliver k st i (envs i)) st).next ∉ S ++ sched ∧
      (sched.foldl (fun st i => deliver k st i (envs i)) st).args =
        (List.range (sched.foldl (fun st i => deliver k st i (envs i)) st).next).map envs ∧
      (sched.foldl (fun st i => deliver k st i (envs i)) st).trace =
        List.range (sched.foldl (fun st i => deliver k st i (envs i)) st).next := by
  intro sched
  induction sched with
  | nil =>
    intro S st _ _ h2 hnot h3 h4
    simp only [List.foldl_nil, List.append_nil]
    exact ⟨h2, hnot, h3, h4⟩
  | cons i rest ih =>
    intro S st hb h1 h2 _ h3 h4
    rw [List.foldl_cons]
    have hmem_conv : ∀ j, (j ∈ (S ++ [i]) ++ rest) ↔ (j ∈ S ++ i :: rest) := by
      intro j
      simp [List.mem_append, List.mem_cons]
    have hbound' : ∀ j ∈ (S ++ [i]) ++ rest, j < k := by
      intro j hj
      exact hb j ((hmem_conv j).mp hj)
    have hbound₁ : ∀ j ∈ S ++ [i], j < k := by
      intro j hj
      exact hbound' j (List.mem_append_left _ hj)
    have hslots'' : ∀ j, ((fun j => if j = i then some (envs i) else st.slots j) j) =
        if j ∈ S ++ [i] then some (envs j) else none := by
      intro j
      by_cases hji : j = i
      · subst hji
        simp [List.mem_append]
      · simp only [if_neg hji, h1 j]
        have : (j ∈ S ++ [i]) ↔ j ∈ S := by
          simp [List.mem_append, hji]
        by_cases hjS : j ∈ S
        · rw [if_pos hjS, if_pos (this.mpr hjS)]
        · rw [if_neg hjS, if_neg (fun h => hjS (this.mp h))]
    have hdrain := drainLoop_spec k envs (S ++ [i]) hbound₁
      { st with slots := fun j => if j = i then some (envs i) else st.slots j }
      hslots''
      (fun j hj => List.mem_append_left _ (h2 j hj))
      h3 h4
    obtain ⟨hd_slots, hd_next, hd_notin, hd_args, hd_trace⟩ := hdrain
    have hrec := ih (S ++ [i]) (deliver k st i (envs i)) hbound'
      (by
        intro j
        rw [show (deliver k st i (envs i)).slots =
          (fun j => if j = i then some (envs i) else st.slots j) from hd_slots]
        exact hslots'' j)
      hd_next hd_notin hd_args hd_trace
    obtain ⟨hr1, hr2, hr3, hr4⟩ := hrec
    refine ⟨?_, ?_, hr3, hr4⟩
    · intro j hj
      exact (hmem_conv j).mp (hr1 j hj)
    · intro hmem
      exact hr2 ((hmem_conv _).mpr hmem)

theorem wireIn_get :
    ∀ (reqs : List String) (dst : String) (i0 i : Nat) (h : i < reqs.length),
      (wireIn dst reqs i0).get? i = some ⟨reqs.get ⟨i, h⟩, dst, i0 + i⟩ := by
  intro reqs
  induction reqs with
  | nil => intro dst i0 i h; simp at h
  | cons r rest ih =>
    intro dst i0 i h
    cases i with
    | zero => simp [wireIn]
    | succ i =>
      have hi : i < rest.length := by
        simpa using Nat.lt_of_succ_lt_succ h
      show (wireIn dst rest (i0 + 1)).get? i = _
      rw [ih dst (i0 + 1) i hi]
      have harith : i0 + 1 + i = i0 + (i + 1) := by omega
      rw [harith]
      rfl

theorem lastErr_none {V : Type} (envs : List (either V)) (h : ∀ e ∈ envs, e.err = none) :
    lastErr envs = none := by
  rw [lastErr_eq]
  have hnil : envs.filterMap (fun e => e.err) = [] := List.filterMap_eq_nil_iff.mpr h
  rw [hnil]
  rfl

/-- C5: a stage's computation receives its arguments positionally in the
declared `requires` order.  (wiring) The i-th inbound pipe appended by the
wiring loop of `Run` is fed by the stage named by `requires[i]`.  (reading)
Whatever the physical arrival order of the round's inbound envelopes, the
worker consumes the pipes in strictly ascending index order — blocking on an
earlier index before inspecting a later one — and assembles the argument
vector in pipe-index order.  (round) With no inbound error the round invokes
the computation on exactly the envelope values in that order. -/
theorem stage_args_in_requires_order {V : Type} (k : Nat) (envs : Nat → either V)
    (sched : List Nat) (hperm : sched.Perm (List.range k)) :
    (runReader k envs sched).args = (List.range k).map envs ∧
    (runReader k envs sched).trace = List.range k ∧
    (∀ (st : Stage V) (i : Nat) (h : i < st.requires.length),
      (inPipes st).get? i = some ⟨st.requires.get ⟨i, h⟩, st.label, i⟩) ∧
    (∀ (st : Stage V) (envs' : List (either V)), (∀ e ∈ envs', e.err = none) →
      roundResult st envs' =
        ⟨(st.exec (envs'.map (fun e => e.value))).1,
         (st.exec (envs'.map (fun e => e.value))).2.map (fun e => GoErr.wrap st.label e)⟩) := by
  have hsched_mem : ∀ j ∈ sched, j < k := by
    intro j hj
    exact List.mem_range.mp (hperm.mem_iff.mp hj)
  have hmain := runReader_foldl k envs sched [] ⟨fun _ => none, 0, [], []⟩
    (by intro j hj; exact hsched_mem j (by simpa using hj))
    (by intro j; simp)
    (by intro j hj; cases hj)
    (by simp)
    (by simp)
    (by simp)
  obtain ⟨hclose, hnotin, hargs, htrace⟩ := hmain
  have hnext : (runReader k envs sched).next = k := by
    have hlt : ¬ (runReader k envs sched).next < k := by
      intro hlt
      have hm : (runReader k envs sched).next ∈ sched :=
        hperm.mem_iff.mpr (List.mem_range.mpr hlt)
      exact hnotin (by simpa using hm)
    have hgt : ¬ k < (runReader k envs sched).next := by
      intro hgt
      have hk : k ∈ sched := by
        have := hclose k hgt
        simpa using this
      exact absurd (hsched_mem k hk) (Nat.lt_irrefl k)
    omega
  refine ⟨?_, ?_, ?_, ?_⟩
  · rw [show (runReader k envs sched).args =
      (List.range (runReader k envs sched).next).map envs from hargs, hnext]
  · rw [show (runReader k envs sched).trace =
      List.range (runReader k envs sched).next from htrace, hnext]
  · intro st i h
    unfold inPipes
    rw [wireIn_get st.requires st.label 0 i h]
    rw [Nat.zero_add]
  · intro st envs' herr
    unfold roundResult
    rw [lastErr_none envs' herr]

/-- C5 witness: two pipes whose data arrives in reverse order (pipe 1
first); the worker still consumes pipe 0 before pipe 1 and hands the
arguments over in index order. -/
theorem stage_args_in_requires_order_witness :
    ([1, 0] : List Nat).Perm (List.range 2) ∧
    (runReader 2 witnessEnvs [1, 0]).args = [witnessEnvs 0, witnessEnvs 1] ∧
    (runReader 2 witnessEnvs [1, 0]).trace = [0, 1] := by
  have hperm : ([1, 0] : List Nat).Perm (List.range 2) := by decide
  have h := stage_args_in_requires_order 2 witnessEnvs [1, 0] hperm
  refine ⟨hperm, ?_, ?_⟩
  · rw [h.1]; rfl
  · rw [h.2.1]; rfl

/-! ## Error propagation through the network (C3): tools -/

theorem chain_elems_mem_of {r : String → String → Prop} {L : List String}
    (hmem : ∀ a b, r a b → b ∈ L) :
    ∀ (l : List String) (a : String), List.Chain r a l → ∀ x ∈ l, x ∈ L := by
  intro l
  induction l with
  | nil => intro a _ x hx; cases hx
  | cons y ys ih =>
    intro a h x hx
    rw [List.chain_cons] at h
    rcases List.mem_cons.mp hx with rfl | hx
    · exact hmem a x h.1
    · exact ih y h.2 x hx

/-- In a cycle-free relation whose targets lie in `L`, every chain is no
longer than the number of distinct elements of `L`. -/
theorem chain_length_le_of {r : String → String → Prop} {L : List String}
    (hmem : ∀ a b, r a b → b ∈ L)
    (hnc : ∀ m, ¬ Relation.TransGen r m m) :
    ∀ (a : String) (l : List String), List.Chain r a l → l.length ≤ L.dedup.length := by
  intro a l hchain
  by_contra hlen
  push_neg at hlen
  have hel : ∀ x ∈ l, x ∈ L := chain_elems_mem_of hmem l a hchain
  have hnodup : ¬ l.Nodup := by
    intro hnd
    have h2 : l.toFinset ⊆ L.toFinset := by
      intro x hx
      exact List.mem_toFinset.mpr (hel x (List.mem_toFinset.mp hx))
    have h3 := Finset.card_le_card h2
    rw [List.card_toFinset, List.card_toFinset, hnd.dedup] at h3
    omega
  obtain ⟨l₁, m, l₂, l₃, rfl⟩ := not_nodup_split l hnodup
  have h1 : List.Chain r m (l₂ ++ m :: l₃) := (List.chain_split.mp hchain).2
  have h2 : List.Chain r m (l₂ ++ [m]) := (List.chain_split.mp h1).1
  apply hnc m
  cases l₂ with
  | nil =>
    rw [List.nil_append, List.chain_singleton] at h2
    exact Relation.TransGen.single h2
  | cons y ys =>
    rw [List.cons_append, List.chain_cons] at h2
    exact Relation.TransGen.head' h2.1 (chain_last_reflTransGen ys y m h2.2)

/-- A cycle-free finitely-supported relation is well-founded in the
descending direction. -/
theorem wf_of_no_cycle {r : String → String → Prop} (L : List String)
    (hmem : ∀ a b, r a b → b ∈ L)
    (hnc : ∀ m, ¬ Relation.TransGen r m m) :
    WellFounded (fun a b => r b a) := by
  have hfin : ∀ n, {m | Relation.ReflTransGen r n m}.Finite := by
    intro n
    apply Set.Finite.subset (Set.Finite.insert n (List.finite_toSet L))
    intro m hm
    rcases Relation.ReflTransGen.cases_tail hm with rfl | ⟨q, _, hq⟩
    · exact Set.mem_insert _ _
    · exact Set.mem_insert_of_mem _ (hmem q m hq)
  have hlt : ∀ a b, r a b →
      Set.ncard {m | Relation.ReflTransGen r b m} < Set.ncard {m | Relation.ReflTransGen r a m} := by
    intro a b hab
    have hsub : {m | Relation.ReflTransGen r b m} ⊆ {m | Relation.ReflTransGen r a m} := by
      intro m hm
      exact Relation.ReflTransGen.head hab hm
    have hnotin : a ∉ {m | Relation.ReflTransGen r b m} := by
      intro hin
      exact hnc a (Relation.TransGen.head' hab hin)
    have hne : {m | Relation.ReflTransGen r b m} ≠ {m | Relation.ReflTransGen r a m} := by
      intro he
      rw [he] at hnotin
      exact hnotin Relation.ReflTransGen.refl
    exact Set.ncard_lt_ncard (hsub.ssubset_of_ne hne) (hfin a)
  refine Subrelation.wf ?_ (InvImage.wf (fun n => Set.ncard {m | Relation.ReflTransGen r n m})
    Nat.lt_wfRel.wf)
  intro x y hxy
  exact hlt y x hxy

/-! `convertStages` records exactly the edges requirement → dependent. -/

theorem succs_addSucc_self : ∀ (g : Graph) (p n : String), n ∈ succs (addSucc g p n) p := by
  intro g
  induction g with
  | nil => intro p n; simp [addSucc, succs, lookupStr]
  | cons kv rest ih =>
    intro p n
    obtain ⟨k, vs⟩ := kv
    by_cases hkp : k = p
    · subst hkp
      simp [addSucc, succs, lookupStr]
    · simp only [addSucc, if_neg hkp, succs, lookupStr, if_neg hkp]
      exact ih p n

theorem succs_addSucc_mono :
    ∀ (g : Graph) (p n q m : String), m ∈ succs g q → m ∈ succs (addSucc g p n) q := by
  intro g
  induction g with
  | nil => intro p n q m h; simp [succs, lookupStr] at h
  | cons kv rest ih =>
    intro p n q m h
    obtain ⟨k, vs⟩ := kv
    by_cases hkp : k = p
    · subst hkp
      by_cases hkq : k = q
      · subst hkq
        simp only [succs, lookupStr, if_pos rfl, Option.getD_some] at h
        simp only [addSucc, if_pos rfl, succs, lookupStr, if_pos rfl, Option.getD_some]
        exact List.mem_append_left _ h
      · simp only [succs, lookupStr, if_neg hkq] at h
        simp only [addSucc, if_pos rfl, succs, lookupStr, if_neg hkq]
        exact h
    · by_cases hkq : k = q
      · subst hkq
        simp only [succs, lookupStr, if_pos rfl, Option.getD_some] at h
        simp only [addSucc, if_neg hkp, succs, lookupStr, if_pos rfl, Option.getD_some]
        exact h
      · simp only [succs, lookupStr, if_neg hkq] at h
        simp only [addSucc, if_neg hkp, succs, lookupStr, if_neg hkq]
        exact ih p n q m (by simpa [succs] using h)

theorem succs_addSucc_inv :
    ∀ (g : Graph) (p n q m : String), m ∈ succs (addSucc g p n) q →
      m ∈ succs g q ∨ (q = p ∧ m = n) := by
  intro g
  induction g with
  | nil =>
    intro p n q m h
    simp only [addSucc, succs, lookupStr] at h
    by_cases hpq : p = q
    · rw [if_pos hpq] at h
      simp at h
      exact Or.inr ⟨hpq.symm, h⟩
    · rw [if_neg hpq] at h
      simp at h
  | cons kv rest ih =>
    intro p n q m h
    obtain ⟨k, vs⟩ := kv
    by_cases hkp : k = p
    · subst hkp
      by_cases hkq : k = q
      · subst hkq
        simp only [addSucc, if_pos rfl, succs, lookupStr, if_pos rfl, Option.getD_some] at h
        rcases List.mem_append.mp h with h | h
        · exact Or.inl (by simp [succs, lookupStr, h])
        · simp at h
          exact Or.inr ⟨rfl, h⟩
      · simp only [addSucc, if_pos rfl, succs, lookupStr, if_neg hkq] at h
        exact Or.inl (by simpa [succs, lookupStr, if_neg hkq] using h)
    · by_cases hkq : k = q
      · subst hkq
        simp only [addSucc, if_neg hkp] at h
        simp [succs, lookupStr] at h
        exact Or.inl (by simp [succs, lookupStr, h])
      · simp only [addSucc, if_neg hkp, succs, lookupStr, if_neg hkq] at h
        rcases ih p n q m (by simpa [succs, lookupStr] using h) with h' | h'
        · exact Or.inl (by simpa [succs, lookupStr, if_neg hkq] using h')
        · exact Or.inr h'

theorem inner_fold_mono (n : String) :
    ∀ (reqs : List String) (g : Graph) (q m : String), m ∈ succs g q →
      m ∈ succs (reqs.foldl (fun gr p => addSucc gr p n) g) q := by
  intro reqs
  induction reqs with
  | nil => intro g q m h; exact h
  | cons r rest ih =>
    intro g q m h
    rw [List.foldl_cons]
    exact ih (addSucc g r n) q m (succs_addSucc_mono g r n q m h)

theorem inner_fold_adds (n : String) :
    ∀ (reqs : List String) (g : Graph) (p : String), p ∈ reqs →
      n ∈ succs (reqs.foldl (fun gr p => addSucc gr p n) g) p := by
  intro reqs
  induction reqs with
  | nil => intro g p h; cases h
  | cons r rest ih =>
    intro g p h
    rw [List.foldl_cons]
    rcases List.mem_cons.mp h with rfl | h
    · exact inner_fold_mono n rest (addSucc g p n) p n (succs_addSucc_self g p n)
    · exact ih (addSucc g r n) p h

theorem inner_fold_inv (n : String) :
    ∀ (reqs : List String) (g : Graph) (q m : String),
      m ∈ succs (reqs.foldl (fun gr p => addSucc gr p n) g) q →
      m ∈ succs g q ∨ (q ∈ reqs ∧ m = n) := by
  intro reqs
  induction reqs with
  | nil => intro g q m h; exact Or.inl h
  | cons r rest ih =>
    intro g q m h
    rw [List.foldl_cons] at h
    rcases ih (addSucc g r n) q m h with h' | ⟨hq, hm⟩
    · rcases succs_addSucc_inv g r n q m h' with h'' | ⟨hq, hm⟩
      · exact Or.inl h''
      · exact Or.inr ⟨by rw [hq]; exact List.mem_cons_self _ _, hm⟩
    · exact Or.inr ⟨List.mem_cons_of_mem _ hq, hm⟩

theorem outer_fold_mono {V : Type} :
    ∀ (sm : StageMap V) (g : Graph) (q m : String), m ∈ succs g q →
      m ∈ succs (sm.foldl (fun gr kv => kv.2.requires.foldl
        (fun gr p => addSucc gr p kv.1) gr) g) q := by
  intro sm
  induction sm with
  | nil => intro g q m h; exact h
  | cons kv rest ih =>
    intro g q m h
    rw [List.foldl_cons]
    exact ih _ q m (inner_fold_mono kv.1 kv.2.requires g q m h)

theorem convert_mem_succs {V : Type} :
    ∀ (sm : StageMap V) (g : Graph) (n : String) (st : Stage V) (p : String),
      (n, st) ∈ sm → p ∈ st.requires →
      n ∈ succs (sm.foldl (fun gr kv => kv.2.requires.foldl
        (fun gr q => addSucc gr q kv.1) gr) g) p := by
  intro sm
  induction sm with
  | nil => intro g n st p h _; cases h
  | cons kv rest ih =>
    intro g n st p hmem hp
    rw [List.foldl_cons]
    rcases List.mem_cons.mp hmem with rfl | hmem
    · exact outer_fold_mono rest _ p n (inner_fold_adds n st.requires g p hp)
    · exact ih _ n st p hmem hp

theorem convert_succs_inv {V : Type} :
    ∀ (sm : StageMap V) (g : Graph) (q m : String),
      m ∈ succs (sm.foldl (fun gr kv => kv.2.requires.foldl
        (fun gr p => addSucc gr p kv.1) gr) g) q →
      m ∈ succs g q ∨ ∃ st, (m, st) ∈ sm ∧ q ∈ st.requires := by
  intro sm
  induction sm with
  | nil => intro g q m h; exact Or.inl h
  | cons kv rest ih =>
    intro g q m h
    rw [List.foldl_cons] at h
    rcases ih _ q m h with h' | ⟨st, hmem, hq⟩
    · rcases inner_fold_inv kv.1 kv.2.requires g q m h' with h'' | ⟨hq, hm⟩
      · exact Or.inl h''
      · subst hm
        exact Or.inr ⟨kv.2, by rw [show (kv.1, kv.2) = kv from rfl]; exact List.mem_cons_self _ _, hq⟩
    · exact Or.inr ⟨st, List.mem_cons_of_mem _ hmem, hq⟩

/-- Forward direction at `convertStages` itself. -/
theorem edge_convertStages {V : Type} (sm : StageMap V) (n : String) (st : Stage V)
    (p : String) (hmem : (n, st) ∈ sm) (hp : p ∈ st.requires) :
    Edge (convertStages sm) p n :=
  convert_mem_succs sm [] n st p hmem hp

/-- Converse direction at `convertStages` itself. -/
theorem edge_convertStages_inv {V : Type} (sm : StageMap V) {p n : String}
    (h : Edge (convertStages sm) p n) : ∃ st, (n, st) ∈ sm ∧ p ∈ st.requires := by
  rcases convert_succs_inv sm [] p n h with h' | h'
  · simp [succs, lookupStr] at h'
  · exact h'

theorem rEdge_edge {V : Type} (sm : StageMap V) {n r : String} (h : REdge sm n r) :
    Edge (convertStages sm) r n := by
  obtain ⟨st, hl, hr⟩ := h
  exact edge_convertStages sm n st r (lookupStr_mem sm n st hl) hr

theorem rEdge_no_cycle {V : Type} (sm : StageMap V)
    (hacyc : ¬ HasCycle (convertStages sm)) :
    ∀ m, ¬ Relation.TransGen (REdge sm) m m := by
  intro m hm
  apply hacyc
  refine ⟨m, ?_⟩
  have hsw : Relation.TransGen (Function.swap (Edge (convertStages sm))) m m :=
    hm.mono (fun a b h => rEdge_edge sm h)
  exact Relation.transGen_swap.mp hsw

theorem lookupStr_isSome_of_key {β : Type} :
    ∀ (l : List (String × β)) (n : String), n ∈ l.map Prod.fst →
      ∃ v, lookupStr l n = some v := by
  intro l
  induction l with
  | nil => intro n h; simp at h
  | cons p t ih =>
    intro n h
    obtain ⟨a, b⟩ := p
    by_cases han : a = n
    · exact ⟨b, by simp [lookupStr, han]⟩
    · simp only [List.map_cons, List.mem_cons] at h
      rcases h with h | h
      · exact absurd h.symm han
      · obtain ⟨v, hv⟩ := ih n h
        exact ⟨v, by simp [lookupStr, han, hv]⟩

theorem seqEnvs_mono_eq {V : Type} (ev ev' : String → Option (either V)) :
    ∀ (l : List String),
      (∀ r ∈ l, ∀ env, ev r = some env → ev' r = some env) →
      ∀ envs, seqEnvs ev l = some envs → seqEnvs ev' l = some envs := by
  intro l
  induction l with
  | nil => intro _ envs h; exact h
  | cons r rest ih =>
    intro h envs hseq
    simp only [seqEnvs] at hseq ⊢
    cases he : ev r with
    | none => rw [he] at hseq; cases hseq
    | some e =>
      rw [he] at hseq
      rw [h r (List.mem_cons_self _ _) e he]
      cases hrest : seqEnvs ev rest with
      | none => rw [hrest] at hseq; cases hseq
      | some es =>
        rw [hrest] at hseq
        rw [ih (fun r hr => h r (List.mem_cons_of_mem _ hr)) es hrest]
        exact hseq

theorem seqEnvs_ne_none {V : Type} (ev : String → Option (either V)) :
    ∀ (l : List String), (∀ r ∈ l, ev r ≠ none) → seqEnvs ev l ≠ none := by
  intro l
  induction l with
  | nil => intro _ h; cases h
  | cons r rest ih =>
    intro h hseq
    simp only [seqEnvs] at hseq
    cases he : ev r with
    | none => exact h r (List.mem_cons_self _ _) he
    | some e =>
      rw [he] at hseq
      cases hrest : seqEnvs ev rest with
      | none => exact ih (fun r hr => h r (List.mem_cons_of_mem _ hr)) hrest
      | some es => rw [hrest] at hseq; cases hseq

theorem seqEnvs_forall₂ {V : Type} (ev : String → Option (either V))
    (R : String → either V → Prop) :
    ∀ (l : List String), (∀ r ∈ l, ∃ env, ev r = some env ∧ R r env) →
      ∃ envs, seqEnvs ev l = some envs ∧ List.Forall₂ R l envs := by
  intro l
  induction l with
  | nil => intro _; exact ⟨[], rfl, List.Forall₂.nil⟩
  | cons r rest ih =>
    intro h
    obtain ⟨env, he, hR⟩ := h r (List.mem_cons_self _ _)
    obtain ⟨envs, hseq, hall⟩ := ih (fun r hr => h r (List.mem_cons_of_mem _ hr))
    refine ⟨env :: envs, ?_, List.Forall₂.cons hR hall⟩
    simp only [seqEnvs]
    rw [he, hseq]

theorem forall₂_mem_right {α β : Type} {R : α → β → Prop} :
    ∀ {l : List α} {l' : List β}, List.Forall₂ R l l' → ∀ b ∈ l', ∃ a ∈ l, R a b := by
  intro l l' h
  induction h with
  | nil => intro b hb; cases hb
  | cons hR _ ih =>
    intro b hb
    rcases List.mem_cons.mp hb with rfl | hb
    · exact ⟨_, List.mem_cons_self _ _, hR⟩
    · obtain ⟨a, ha, hab⟩ := ih b hb
      exact ⟨a, List.mem_cons_of_mem _ ha, hab⟩

theorem evalNet_mono {V : Type} (sm : StageMap V) (x : Option V) :
    ∀ (f : Nat) (n : String) (env : either V), evalNet sm x f n = some env →
      ∀ f', f ≤ f' → evalNet sm x f' n = some env := by
  intro f
  induction f with
  | zero => intro n env h; cases h
  | succ f ih =>
    intro n env h f' hf'
    obtain ⟨f'', rfl⟩ : ∃ f'', f' = f'' + 1 := ⟨f' - 1, by omega⟩
    simp only [evalNet] at h ⊢
    cases hl : lookupStr sm n with
    | none => rw [hl] at h; simp at h
    | some st =>
      rw [hl] at h
      dsimp only at h ⊢
      by_cases hn : n = Input
      · rw [if_pos hn] at h ⊢
        exact h
      · rw [if_neg hn] at h ⊢
        cases hs : seqEnvs (evalNet sm x f) st.requires with
        | none => rw [hs] at h; cases h
        | some envs =>
          rw [hs] at h
          have hs' : seqEnvs (evalNet sm x f'') st.requires = some envs :=
            seqEnvs_mono_eq _ _ _ (fun r _ env he => ih r env he f'' (by omega)) envs hs
          rw [hs']
          exact h

theorem evalNet_suff {V : Type} (sm : StageMap V) (x : Option V)
    (hghost : ∀ n r, REdge sm n r → r ∈ sm.map Prod.fst) :
    ∀ (f : Nat) (n : String), n ∈ sm.map Prod.fst →
      (∀ l, List.Chain (REdge sm) n l → l.length < f) →
      evalNet sm x f n ≠ none := by
  intro f
  induction f with
  | zero =>
    intro n _ hch _
    have := hch [] List.Chain.nil
    omega
  | succ f ih =>
    intro n hkey hch h
    simp only [evalNet] at h
    obtain ⟨st, hst⟩ := lookupStr_isSome_of_key sm n hkey
    rw [hst] at h
    dsimp only at h
    by_cases hn : n = Input
    · rw [if_pos hn] at h; cases h
    · rw [if_neg hn] at h
      have hseq : seqEnvs (evalNet sm x f) st.requires ≠ none := by
        apply seqEnvs_ne_none
        intro r hr
        have hre : REdge sm n r := ⟨st, hst, hr⟩
        refine ih r (hghost n r hre) ?_
        intro l hl
        have hlen := hch (r :: l) (List.Chain.cons hre hl)
        simp only [List.length_cons] at hlen
        omega
      cases hsq : seqEnvs (evalNet sm x f) st.requires with
      | none => exact hseq hsq
      | some envs => rw [hsq] at h; cases h

theorem dfsC_top_ne_none (g : Graph) (hacyc : ¬ HasCycle g) :
    dfsC g (checkFuel g) (fun _ => false) Input ≠ none := by
  apply dfsC_fuel
  intro l' hl'
  have h1 := chain_length_le g hacyc Input l' hl'
  have h2 : ((allNodes g).dedup).length ≤ (allNodes g).length :=
    (List.dedup_sublist _).length_le
  unfold checkFuel
  omega

/-- Structural facts a graph that passed the consistency check satisfies:
no reachable dangling node, and every node of the adjacency map reachable. -/
theorem consistencyCheck_ok_facts (g : Graph) (hacyc : ¬ HasCycle g)
    (h : consistencyCheck g = some none) :
    (∀ m, Reach g Input m → (succs g m ≠ [] ∨ m = sink)) ∧
    (∀ m ∈ allNodes g, Reach g Input m) := by
  cases hdfs : dfsC g (checkFuel g) (fun _ => false) Input with
  | none => exact absurd hdfs (dfsC_top_ne_none g hacyc)
  | some p =>
    obtain ⟨vis, r⟩ := p
    cases r with
    | some e =>
      have : consistencyCheck g = some (some e) := by
        unfold consistencyCheck
        rw [hdfs]
      rw [this] at h
      cases h
    | none =>
      cases hfind : (allNodes g).find? (fun m => !vis m) with
      | some u =>
        have : consistencyCheck g = some (some (CheckError.unreachable u)) := by
          unfold consistencyCheck
          rw [hdfs]
          simp only [hfind]
        rw [this] at h
        cases h
      | none =>
        have hallvis : ∀ m ∈ allNodes g, vis m = true := by
          intro m hm
          have := List.find?_eq_none.mp hfind m hm
          simpa using this
        refine ⟨?_, ?_⟩
        · intro m hm
          exact (dfsC_success g (checkFuel g) _ Input vis hdfs m hm).2
        · intro m hm
          rcases dfsC_marks g (checkFuel g) _ Input (vis, none) hdfs m (hallvis m hm)
            with h' | h'
          · cases h'
          · exact h'

theorem reach_sink_of_ok (g : Graph) (hacyc : ¬ HasCycle g)
    (hnd : ∀ m, Reach g Input m → (succs g m ≠ [] ∨ m = sink)) :
    ∀ n, Reach g Input n → Reach g n sink := by
  have hwf := wf_of_no_cycle (allNodes g) (fun a b h => edge_target_mem g h)
    (fun m hm => hacyc ⟨m, hm⟩)
  intro n
  refine hwf.induction (C := fun n => Reach g Input n → Reach g n sink) n ?_
  intro m ih hreach
  rcases hnd m hreach with hsucc | heq
  · obtain ⟨s, hs⟩ := List.exists_mem_of_ne_nil _ hsucc
    have hedge : Edge g m s := hs
    exact Relation.ReflTransGen.head hedge (ih s hedge (hreach.tail hedge))
  · rw [heq]
    exact Relation.ReflTransGen.refl

theorem analyze_ok_facts {V : Type} (sm : StageMap V) (hval : analyze sm = none) :
    (∃ stI, lookupStr sm Input = some stI) ∧
    (∃ stS, lookupStr sm sink = some stS) ∧
    ¬ HasCycle (convertStages sm) ∧
    consistencyCheck (convertStages sm) = some none := by
  unfold analyze at hval
  cases h1 : lookupStr sm Input with
  | none => rw [h1] at hval; cases hval
  | some stI =>
    rw [h1] at hval
    cases h2 : lookupStr sm sink with
    | none => rw [h2] at hval; cases hval
    | some stS =>
      rw [h2] at hval
      simp only at hval
      cases hcl : containsLoop (convertStages sm) with
      | true => rw [hcl] at hval; simp at hval
      | false =>
        rw [hcl] at hval
        simp only [Bool.false_eq_true, if_false] at hval
        refine ⟨⟨stI, rfl⟩, ⟨stS, rfl⟩, no_hasCycle_of_containsLoop_false _ hcl, ?_⟩
        cases hcc : consistencyCheck (convertStages sm) with
        | none => rw [hcc] at hval; cases hval
        | some rr =>
          cases rr with
          | some e => rw [hcc] at hval; cases hval
          | none => rfl

theorem lookup_eq_of_mem_nodup {β : Type} :
    ∀ (l : List (String × β)), (l.map Prod.fst).Nodup →
      ∀ (k : String) (v : β), (k, v) ∈ l → lookupStr l k = some v := by
  intro l
  induction l with
  | nil => intro _ k v h; cases h
  | cons p t ih =>
    intro hnd k v h
    obtain ⟨a, b⟩ := p
    simp only [List.map_cons, List.nodup_cons] at hnd
    rcases List.mem_cons.mp h with heq | hmem
    · rw [Prod.mk.injEq] at heq
      obtain ⟨rfl, rfl⟩ := heq
      simp [lookupStr]
    · have hak : a ≠ k := by
        intro heq
        subst heq
        exact hnd.1 (List.mem_map.mpr ⟨(a, v), hmem, rfl⟩)
      simp only [lookupStr, if_neg hak]
      exact ih hnd.2 k v hmem

theorem forall₂_mem_left {α β : Type} {R : α → β → Prop} :
    ∀ {l : List α} {l' : List β}, List.Forall₂ R l l' → ∀ a ∈ l, ∃ b ∈ l', R a b := by
  intro l l' h
  induction h with
  | nil => intro a ha; cases ha
  | cons hR _ ih =>
    intro a ha
    rcases List.mem_cons.mp ha with rfl | ha
    · exact ⟨_, List.mem_cons_self _ _, hR⟩
    · obtain ⟨b, hb, hab⟩ := ih a ha
      exact ⟨b, List.mem_cons_of_mem _ hb, hab⟩

/-- When every inbound error equals `E` and at least one is present, the
round's surviving error is `E`. -/
theorem lastErr_all_same {V : Type} (envs : List (either V)) (E : GoErr)
    (hall : ∀ e ∈ envs, e.err = none ∨ e.err = some E)
    (hex : ∃ e ∈ envs, e.err = some E) : lastErr envs = some E := by
  rw [lastErr_eq]
  obtain ⟨e, hmem, herr⟩ := hex
  have hne : envs.filterMap (fun e => e.err) ≠ [] :=
    List.ne_nil_of_mem (List.mem_filterMap.mpr ⟨e, hmem, herr⟩)
  rw [List.getLast?_eq_getLast_of_ne_nil hne]
  have hlmem := List.getLast_mem hne
  obtain ⟨e', hmem', herr'⟩ := List.mem_filterMap.mp hlmem
  rcases hall e' hmem' with h | h
  · rw [h] at herr'; cases herr'
  · rw [h] at herr'
    rw [Option.some.injEq] at herr'
    rw [herr']

theorem simExcept_refl {V : Type} (sm : StageMap V) (c : String) : SimExcept sm sm c := by
  intro n
  cases hl : lookupStr sm n with
  | none => exact Or.inl ⟨rfl, rfl⟩
  | some st => exact Or.inr ⟨st, st, rfl, rfl, rfl, Or.inr rfl⟩

/-- The error-propagation invariant: for a validated map in which exactly
stage `c`'s computation fails, every stage evaluates to the same envelope in
`sm` and in any `SimExcept`-variant `sm'`; stages not downstream of `c`
produce clean envelopes, `c` produces its wrapped error, and every stage
strictly downstream of `c` propagates exactly `⟨nil, wrapped error⟩`. -/
theorem errorProp_aux {V : Type} (sm sm' : StageMap V) (x : Option V) (c : String)
    (stc : Stage V) (e0 : GoErr)
    (hnodup : (sm.map Prod.fst).Nodup)
    (hinput : lookupStr sm Input = some (inputStage V))
    (hacyc : ¬ HasCycle (convertStages sm))
    (hghost : ∀ n r, REdge sm n r → r ∈ sm.map Prod.fst)
    (hc : lookupStr sm c = some stc)
    (hcInput : c ≠ Input)
    (hfail : ∀ envs, seqEnvs (evalNet sm x (netFuel sm)) stc.requires = some envs →
      (stc.exec (envs.map (fun e => e.value))).2 = some e0)
    (hothers : ∀ n st, lookupStr sm n = some st → n ≠ c →
      ∀ envs, seqEnvs (evalNet sm x (netFuel sm)) st.requires = some envs →
      (∀ e ∈ envs, e.err = none) →
      (st.exec (envs.map (fun e => e.value))).2 = none)
    (hsim : SimExcept sm sm' c) :
    ∀ (f : Nat) (n : String), n ∈ sm.map Prod.fst →
      (∀ l, List.Chain (REdge sm) n l → l.length < f) →
      ∃ env, evalNet sm x f n = some env ∧ evalNet sm' x f n = some env ∧
        (¬ Relation.ReflTransGen (Edge (convertStages sm)) c n → env.err = none) ∧
        (n = c → env.err = some (GoErr.wrap stc.label e0)) ∧
        (Relation.ReflTransGen (Edge (convertStages sm)) c n → n ≠ c →
          env = ⟨none, some (GoErr.wrap stc.label e0)⟩) := by
  intro f
  induction f with
  | zero =>
    intro n _ hch
    exact absurd (hch [] List.Chain.nil) (by omega)
  | succ f ih =>
    intro n hkey hch
    obtain ⟨st, hst⟩ := lookupStr_isSome_of_key sm n hkey
    rcases hsim n with ⟨hnone, _⟩ | ⟨st₁, st', hst₁, hst', hreq', hcase⟩
    · rw [hst] at hnone; cases hnone
    · rw [hst] at hst₁
      rw [Option.some.injEq] at hst₁
      subst hst₁
      by_cases hnI : n = Input
      · subst hnI
        have hstI : st = inputStage V := by
          rw [hinput] at hst
          exact (Option.some.inj hst).symm
        have hDInput : ¬ Relation.ReflTransGen (Edge (convertStages sm)) c Input := by
          intro hr
          rcases Relation.ReflTransGen.cases_tail hr with heq | ⟨p, _, hp⟩
          · exact hcInput heq.symm
          · obtain ⟨stX, hmemX, hpX⟩ := edge_convertStages_inv sm hp
            have hlX : lookupStr sm Input = some stX :=
              lookup_eq_of_mem_nodup sm hnodup Input stX hmemX
            rw [hinput] at hlX
            rw [Option.some.injEq] at hlX
            rw [← hlX] at hpX
            simp [inputStage] at hpX
        have hst'' : st' = st := by
          rcases hcase with ⟨hD, _⟩ | h
          · exact absurd hD hDInput
          · exact h
        refine ⟨roundResult st [⟨x, none⟩], ?_, ?_, ?_, ?_, ?_⟩
        · simp only [evalNet]
          rw [hst]
          simp
        · simp only [evalNet]
          rw [hst', hst'']
          simp
        · intro _
          rw [hstI]
          simp [roundResult, lastErr, inputStage]
        · intro heq
          exact absurd heq.symm hcInput
        · intro hD _
          exact absurd hD hDInput
      · have hIH : ∀ r ∈ st.requires,
            ∃ env, evalNet sm x f r = some env ∧ evalNet sm' x f r = some env ∧
              (¬ Relation.ReflTransGen (Edge (convertStages sm)) c r → env.err = none) ∧
              (r = c → env.err = some (GoErr.wrap stc.label e0)) ∧
              (Relation.ReflTransGen (Edge (convertStages sm)) c r → r ≠ c →
                env = ⟨none, some (GoErr.wrap stc.label e0)⟩) := by
          intro r hr
          have hre : REdge sm n r := ⟨st, hst, hr⟩
          refine ih r (hghost n r hre) ?_
          intro l hl
          have hlen := hch (r :: l) (List.Chain.cons hre hl)
          simp only [List.length_cons] at hlen
          omega
        obtain ⟨envs, hseq, hall⟩ := seqEnvs_forall₂ (evalNet sm x f)
          (fun r env => evalNet sm x f r = some env ∧ evalNet sm' x f r = some env ∧
            (¬ Relation.ReflTransGen (Edge (convertStages sm)) c r → env.err = none) ∧
            (r = c → env.err = some (GoErr.wrap stc.label e0)) ∧
            (Relation.ReflTransGen (Edge (convertStages sm)) c r → r ≠ c →
              env = ⟨none, some (GoErr.wrap stc.label e0)⟩))
          st.requires (fun r hr => by
            obtain ⟨env, h1, h2, h3, h4, h5⟩ := hIH r hr
            exact ⟨env, h1, ⟨h1, h2, h3, h4, h5⟩⟩)
        have hEval : evalNet sm x (f + 1) n = some (roundResult st envs) := by
          simp only [evalNet]
          rw [hst]
          dsimp only
          rw [if_neg hnI, hseq]
        have hseq' : seqEnvs (evalNet sm' x f) st'.requires = some envs := by
          rw [hreq']
          refine seqEnvs_mono_eq _ _ _ ?_ envs hseq
          intro r hr env he
          obtain ⟨env₀, h1, h2, _⟩ := hIH r hr
          rw [he] at h1
          rw [Option.some.injEq] at h1
          rw [← h1] at h2
          exact h2
        have hEval' : evalNet sm' x (f + 1) n = some (roundResult st' envs) := by
          simp only [evalNet]
          rw [hst']
          dsimp only
          rw [if_neg hnI, hseq']
        have htop : ∀ r ∈ st.requires, ∀ env, evalNet sm x f r = some env →
            evalNet sm x (netFuel sm) r = some env := by
          intro r hr env he
          by_cases hff : f ≤ netFuel sm
          · exact evalNet_mono sm x f r env he (netFuel sm) hff
          · have hrkey := hghost n r ⟨st, hst, hr⟩
            have hchainsR : ∀ l, List.Chain (REdge sm) r l → l.length < netFuel sm := by
              intro l hl
              have hb := chain_length_le_of (fun a b h => hghost a b h)
                (rEdge_no_cycle sm hacyc) r l hl
              have hk : ((sm.map Prod.fst).dedup).length ≤ (sm.map Prod.fst).length :=
                (List.dedup_sublist _).length_le
              have hml : (sm.map Prod.fst).length = sm.length := List.length_map _ _
              unfold netFuel
              omega
            have hsuf := evalNet_suff sm x hghost (netFuel sm) r hrkey hchainsR
            cases hE : evalNet sm x (netFuel sm) r with
            | none => exact absurd hE hsuf
            | some env₂ =>
              have hmon := evalNet_mono sm x (netFuel sm) r env₂ hE f (by omega)
              rw [he] at hmon
              rw [Option.some.injEq] at hmon
              rw [hmon]
        have hseqTop : seqEnvs (evalNet sm x (netFuel sm)) st.requires = some envs :=
          seqEnvs_mono_eq _ _ _ (fun r hr env he => htop r hr env he) envs hseq
        by_cases hDn : Relation.ReflTransGen (Edge (convertStages sm)) c n
        · by_cases hnc : n = c
          · subst hnc
            have hstc : st = stc := by
              rw [hc] at hst
              exact (Option.some.inj hst).symm
            subst hstc
            have hclean : ∀ e ∈ envs, e.err = none := by
              intro e he
              obtain ⟨r, hr, hR⟩ := forall₂_mem_right hall e he
              refine hR.2.2.1 ?_
              intro hDr
              have hedge : Edge (convertStages sm) r n :=
                edge_convertStages sm n st r (lookupStr_mem sm n st hst) hr
              exact hacyc ⟨n, Relation.TransGen.tail' hDr hedge⟩
            have hexecErr : (st.exec (envs.map (fun e => e.value))).2 = some e0 :=
              hfail envs hseqTop
            have hst'' : st' = st := by
              rcases hcase with ⟨_, hne⟩ | h
              · exact absurd rfl hne
              · exact h
            refine ⟨roundResult st envs, hEval, by rw [hEval', hst''], ?_, ?_, ?_⟩
            · intro hnD
              exact absurd hDn hnD
            · intro _
              unfold roundResult
              rw [lastErr_none envs hclean]
              dsimp only
              rw [hexecErr]
              rfl
            · intro _ hne
              exact absurd rfl hne
          · obtain ⟨r₀, hr₀req, hDr₀⟩ : ∃ r₀ ∈ st.requires,
                Relation.ReflTransGen (Edge (convertStages sm)) c r₀ := by
              rcases Relation.ReflTransGen.cases_tail hDn with heq | ⟨p, hcp, hp⟩
              · exact absurd heq hnc
              · obtain ⟨stX, hmemX, hpX⟩ := edge_convertStages_inv sm hp
                have hlX : lookupStr sm n = some stX :=
                  lookup_eq_of_mem_nodup sm hnodup n stX hmemX
                rw [hst] at hlX
                rw [Option.some.injEq] at hlX
                rw [← hlX] at hpX
                exact ⟨p, hpX, hcp⟩
            have hallE : ∀ e ∈ envs, e.err = none ∨
                e.err = some (GoErr.wrap stc.label e0) := by
              intro e he
              obtain ⟨r, hr, hR⟩ := forall₂_mem_right hall e he
              by_cases hDr : Relation.ReflTransGen (Edge (convertStages sm)) c r
              · by_cases hrc : r = c
                · exact Or.inr (hR.2.2.2.1 hrc)
                · refine Or.inr ?_
                  rw [hR.2.2.2.2 hDr hrc]
              · exact Or.inl (hR.2.2.1 hDr)
            have hexE : ∃ e ∈ envs, e.err = some (GoErr.wrap stc.label e0) := by
              obtain ⟨env₀, henv₀, hR₀⟩ := forall₂_mem_left hall r₀ hr₀req
              refine ⟨env₀, henv₀, ?_⟩
              by_cases hrc : r₀ = c
              · exact hR₀.2.2.2.1 hrc
              · rw [hR₀.2.2.2.2 hDr₀ hrc]
            have hlastE : lastErr envs = some (GoErr.wrap stc.label e0) :=
              lastErr_all_same envs _ hallE hexE
            have henvE : roundResult st envs =
                ⟨none, some (GoErr.wrap stc.label e0)⟩ := by
              unfold roundResult
              rw [hlastE]
            have henvE' : roundResult st' envs =
                ⟨none, some (GoErr.wrap stc.label e0)⟩ := by
              unfold roundResult
              rw [hlastE]
            refine ⟨⟨none, some (GoErr.wrap stc.label e0)⟩,
              by rw [hEval, henvE], by rw [hEval', henvE'], ?_, ?_, ?_⟩
            · intro hnD
              exact absurd hDn hnD
            · intro heq
              exact absurd heq hnc
            · intro _ _
              rfl
        · have hnc : n ≠ c := by
            intro heq
            subst heq
            exact hDn Relation.ReflTransGen.refl
          have hclean : ∀ e ∈ envs, e.err = none := by
            intro e he
            obtain ⟨r, hr, hR⟩ := forall₂_mem_right hall e he
            refine hR.2.2.1 ?_
            intro hDr
            have hedge : Edge (convertStages sm) r n :=
              edge_convertStages sm n st r (lookupStr_mem sm n st hst) hr
            exact hDn (hDr.tail hedge)
          have hexecOk : (st.exec (envs.map (fun e => e.value))).2 = none :=
            hothers n st hst hnc envs hseqTop hclean
          have hst'' : st' = st := by
            rcases hcase with ⟨hD, _⟩ | h
            · exact absurd hD hDn
            · exact h
          refine ⟨roundResult st envs, hEval, by rw [hEval', hst''], ?_, ?_, ?_⟩
          · intro _
            unfold roundResult
            rw [lastErr_none envs hclean]
            dsimp only
            rw [hexecOk]
            rfl
          · intro heq
            exact absurd heq hnc
          · intro hD
            exact absurd hD hDn

/-- C3: for every validated stage map (every ordinary stage declaring at
least one dependency) and every request on which exactly stage `c`'s
computation fails — `c` returns error `e0` on the arguments it receives, and
every other stage returns no error on clean inputs — the invocation returns
`c`'s error wrapped once with `c`'s label (`stage c: …`) and no value; and
the result is identical on every variant network `sm'` whose stages
strictly downstream of `c` (the exit included) carry arbitrary replacement
computations, so no downstream computation is ever consulted. -/
theorem invocation_returns_failing_stage_error {V : Type}
    (sm sm' : StageMap V) (x : Option V) (c : String) (stc : Stage V) (e0 : GoErr)
    (hval : analyze sm = none)
    (hnodup : (sm.map Prod.fst).Nodup)
    (hinput : lookupStr sm Input = some (inputStage V))
    (hreq : ∀ p ∈ sm, p.1 ≠ Input → (p.2).requires ≠ [])
    (hc : lookupStr sm c = some stc)
    (hcInput : c ≠ Input) (hcSink : c ≠ sink)
    (hfail : ∀ envs, seqEnvs (evalNet sm x (netFuel sm)) stc.requires = some envs →
      (stc.exec (envs.map (fun e => e.value))).2 = some e0)
    (hothers : ∀ n st, lookupStr sm n = some st → n ≠ c →
      ∀ envs, seqEnvs (evalNet sm x (netFuel sm)) st.requires = some envs →
      (∀ e ∈ envs, e.err = none) →
      (st.exec (envs.map (fun e => e.value))).2 = none)
    (hsim : SimExcept sm sm' c)
    (hlen : sm'.length = sm.length) :
    invoke ⟨sm', true⟩ x =
      InvokeResult.returned none (some (GoErr.wrap stc.label e0)) ∧
    invoke ⟨sm, true⟩ x =
      InvokeResult.returned none (some (GoErr.wrap stc.label e0)) := by
  obtain ⟨⟨stI, hInputEx⟩, ⟨stS, hSinkEx⟩, hacyc, hok⟩ := analyze_ok_facts sm hval
  obtain ⟨hnd, hreachAll⟩ := consistencyCheck_ok_facts (convertStages sm) hacyc hok
  have hghost : ∀ n r, REdge sm n r → r ∈ sm.map Prod.fst := by
    intro n r hre
    have hedge : Edge (convertStages sm) r n := rEdge_edge sm hre
    have hrAll : r ∈ allNodes (convertStages sm) :=
      key_mem_allNodes _ r (edge_source_key _ hedge)
    have hrReach : Reach (convertStages sm) Input r := hreachAll r hrAll
    rcases Relation.ReflTransGen.cases_tail hrReach with heq | ⟨p, _, hp⟩
    · rw [heq]
      exact lookupStr_key_mem sm Input _ hinput
    · obtain ⟨stX, hmemX, _⟩ := edge_convertStages_inv sm hp
      exact List.mem_map.mpr ⟨(r, stX), hmemX, rfl⟩
  have hcKey : (c, stc) ∈ sm := lookupStr_mem sm c stc hc
  have hcReqNe : stc.requires ≠ [] := hreq (c, stc) hcKey hcInput
  obtain ⟨r, hrmem⟩ := List.exists_mem_of_ne_nil _ hcReqNe
  have hcEdge : Edge (convertStages sm) r c := edge_convertStages sm c stc r hcKey hrmem
  have hcAll : c ∈ allNodes (convertStages sm) := edge_target_mem _ hcEdge
  have hcReach : Reach (convertStages sm) Input c := hreachAll c hcAll
  have hcSinkReach : Reach (convertStages sm) c sink :=
    reach_sink_of_ok _ hacyc hnd c hcReach
  have hsinkKey : sink ∈ sm.map Prod.fst := lookupStr_key_mem sm sink stS hSinkEx
  have hsinkChains : ∀ l, List.Chain (REdge sm) sink l → l.length < netFuel sm := by
    intro l hl
    have hb := chain_length_le_of (fun a b h => hghost a b h)
      (rEdge_no_cycle sm hacyc) sink l hl
    have hk : ((sm.map Prod.fst).dedup).length ≤ (sm.map Prod.fst).length :=
      (List.dedup_sublist _).length_le
    have hml : (sm.map Prod.fst).length = sm.length := List.length_map _ _
    unfold netFuel
    omega
  obtain ⟨env, hEv, hEv', _, _, hQ3⟩ := errorProp_aux sm sm' x c stc e0 hnodup hinput
    hacyc hghost hc hcInput hfail hothers hsim (netFuel sm) sink hsinkKey hsinkChains
  have henv : env = ⟨none, some (GoErr.wrap stc.label e0)⟩ :=
    hQ3 hcSinkReach (fun h => hcSink h.symm)
  subst henv
  have hfuel_eq : netFuel sm' = netFuel sm := by
    unfold netFuel
    rw [hlen]
  constructor
  · unfold invoke
    dsimp only
    rw [hfuel_eq, hEv']
    rfl
  · unfold invoke
    dsimp only
    rw [hEv]
    rfl

theorem invocation_returns_failing_stage_error_witness :
    analyze exampleFailSM = none ∧
    invoke ⟨exampleFailSM, true⟩ (some 1) =
      InvokeResult.returned none (some (GoErr.wrap "c" (GoErr.user "boom"))) := by
  have hval : analyze exampleFailSM = none := by decide
  have hreq : ∀ p ∈ exampleFailSM, p.1 ≠ Input → (p.2).requires ≠ [] := by
    intro p hp
    simp only [exampleFailSM, List.mem_cons, List.not_mem_nil, or_false] at hp
    rcases hp with rfl | rfl | rfl | rfl | rfl | rfl
    · intro hne; exact absurd rfl hne
    · intro _; decide
    · intro _; decide
    · intro _; decide
    · intro _; decide
    · intro _; decide
  have hfail : ∀ envs,
      seqEnvs (evalNet exampleFailSM (some 1) (netFuel exampleFailSM))
        (NewStage "c" cFailExec [Input]).requires = some envs →
      ((NewStage "c" cFailExec [Input]).exec (envs.map (fun e => e.value))).2 =
        some (GoErr.user "boom") :=
    fun _ _ => rfl
  have hothers : ∀ n st, lookupStr exampleFailSM n = some st → n ≠ "c" →
      ∀ envs, seqEnvs (evalNet exampleFailSM (some 1) (netFuel exampleFailSM))
        st.requires = some envs →
      (∀ e ∈ envs, e.err = none) →
      (st.exec (envs.map (fun e => e.value))).2 = none := by
    intro n st hlk hne envs henvs hclean
    have hmem := lookupStr_mem _ n st hlk
    simp only [exampleFailSM, List.mem_cons, List.not_mem_nil, or_false,
      Prod.mk.injEq] at hmem
    rcases hmem with ⟨rfl, rfl⟩ | ⟨rfl, rfl⟩ | ⟨rfl, rfl⟩ | ⟨rfl, rfl⟩ | ⟨rfl, rfl⟩ | ⟨rfl, rfl⟩
    · have hseq : seqEnvs (evalNet exampleFailSM (some 1) (netFuel exampleFailSM))
          (inputStage Int).requires = some ([] : List (either Int)) := rfl
      rw [hseq] at henvs
      injection henvs with henvs
      subst henvs
      rfl
    · have hseq : seqEnvs (evalNet exampleFailSM (some 1) (netFuel exampleFailSM))
          exampleFinal.requires =
          some [⟨some 0, none⟩, ⟨none, some (GoErr.wrap "c" (GoErr.user "boom"))⟩] := by
        decide
      rw [hseq] at henvs
      injection henvs with henvs
      subst henvs
      have hbad := hclean ⟨none, some (GoErr.wrap "c" (GoErr.user "boom"))⟩ (by simp)
      exact Option.noConfusion hbad
    · have hseq : seqEnvs (evalNet exampleFailSM (some 1) (netFuel exampleFailSM))
          (NewStage "b" bExec [Input]).requires =
          some [⟨some 1, none⟩] := by decide
      rw [hseq] at henvs
      injection henvs with henvs
      subst henvs
      rfl
    · exact absurd rfl hne
    · have hseq : seqEnvs (evalNet exampleFailSM (some 1) (netFuel exampleFailSM))
          (NewStage "d" dExec [Input]).requires =
          some [⟨some 1, none⟩] := by decide
      rw [hseq] at henvs
      injection henvs with henvs
      subst henvs
      rfl
    · have hseq : seqEnvs (evalNet exampleFailSM (some 1) (netFuel exampleFailSM))
          (NewStage "e" eExec ["c", "d"]).requires =
          some [⟨none, some (GoErr.wrap "c" (GoErr.user "boom"))⟩, ⟨some 6, none⟩] := by
        decide
      rw [hseq] at henvs
      injection henvs with henvs
      subst henvs
      have hbad := hclean ⟨none, some (GoErr.wrap "c" (GoErr.user "boom"))⟩ (by simp)
      exact Option.noConfusion hbad
  have h := invocation_returns_failing_stage_error exampleFailSM exampleFailSM (some 1)
    "c" (NewStage "c" cFailExec [Input]) (GoErr.user "boom")
    hval (by decide) rfl hreq rfl (by decide) (by decide) hfail hothers
    (simExcept_refl _ _) rfl
  exact ⟨hval, h.2⟩

end Dataflow
